import Mathlib

/-
Verification of the per-face optimal-triangulation core of
src/src/pmp/algorithms/SurfaceTriangulation.cpp.

The half-edge mesh (pmp::SurfaceMesh) is an external collaborator of this
core: only its interface is specified (spec §6).  It is modelled below as a
record of query functions; mesh mutations (delete_face, add_triangle) are
recorded in an event trace rather than applied, following the spec, which
describes deletion as a mark for deferred removal.  Scalar (a float in the
source) is modelled as an exact integer, with FLT_MAX as an explicit
sentinel constant: positions are integer-coordinate points, so every weight
the source computes from them is an integer.  Machine floats are not
modelled bit-exactly; all arithmetic on weights is exact.
-/

set_option maxRecDepth 100000
set_option maxHeartbeats 1000000

namespace PmpTri

/-- Vertex handle (opaque index into the external mesh). -/
abbrev Vertex := Nat

/-- Halfedge handle (opaque). -/
abbrev Halfedge := Nat

/-- Face handle (opaque). -/
abbrev Face := Nat

/-- A 3-D point with exact integer coordinates (embedding of pmp::Point). -/
structure Pt where
  x : ℤ
  y : ℤ
  z : ℤ
deriving DecidableEq

/-- Componentwise difference of points (embeds operator- on pmp vectors). -/
def psub (a b : Pt) : Pt := ⟨a.x - b.x, a.y - b.y, a.z - b.z⟩

/-- Cross product (embeds pmp::cross). -/
def cross (a b : Pt) : Pt :=
  ⟨a.y * b.z - a.z * b.y, a.z * b.x - a.x * b.z, a.x * b.y - a.y * b.x⟩

/-- Squared norm (embeds pmp::sqrnorm). -/
def sqrnorm (a : Pt) : ℤ := a.x ^ 2 + a.y ^ 2 + a.z ^ 2

/-- Modelled from the spec: the half-edge mesh collaborator (spec §6), which is
not part of src/.  Only the read-only capabilities the core consumes appear:
one boundary halfedge per face, the next-halfedge and to-vertex relations,
the opposite-halfedge relation, boundary and manifold predicates, directed
edge lookup, and vertex positions. -/
structure SurfaceMesh where
  halfedge : Face → Halfedge
  next_halfedge : Halfedge → Halfedge
  to_vertex : Halfedge → Vertex
  opposite_halfedge : Halfedge → Halfedge
  is_boundary : Halfedge → Bool
  is_manifold : Vertex → Bool
  find_halfedge : Vertex → Vertex → Option Halfedge
  point : Vertex → Pt

/-- The float sentinel FLT_MAX used by the source, as an exact integer
(FLT_MAX = (2^24 - 1) * 2^104). -/
def FLTMAX : ℤ := 2 ^ 128 - 2 ^ 104

/-- Embeds SurfaceTriangulation::is_edge (find_halfedge(a,b).is_valid()). -/
def is_edge (M : SurfaceMesh) (a b : Vertex) : Bool :=
  (M.find_halfedge a b).isSome

/-- Embeds SurfaceTriangulation::is_interior_edge: the halfedge between the two
vertices exists and neither it nor its opposite is a boundary halfedge. -/
def is_interior_edge (M : SurfaceMesh) (a b : Vertex) : Bool :=
  match M.find_halfedge a b with
  | none => false
  | some h => !M.is_boundary h && !M.is_boundary (M.opposite_halfedge h)

/-- Embeds SurfaceTriangulation::compute_weight: the infeasible sentinel when
one of the three candidate edges already exists as an interior edge, otherwise
the squared magnitude of the cross product of the two edge vectors. -/
def compute_weight (M : SurfaceMesh) (vs : List Vertex) (i j k : Nat) : ℤ :=
  let a := vs.getD i 0
  let b := vs.getD j 0
  let c := vs.getD k 0
  if is_interior_edge M a b || is_interior_edge M b c || is_interior_edge M c a then
    FLTMAX
  else
    sqrnorm (cross (psub (M.point b) (M.point a)) (psub (M.point c) (M.point a)))

/-- A DP table cell: (weight_[i][k], index_[i][k]). -/
abbrev Table := Nat → Nat → ℤ × Int

/-- Embeds the inner split scan of the table builder (the m-loop at lines
85-93): running minimum with strict improvement, so the first-encountered
minimiser is kept. -/
def scanSplits (cand : Nat → ℤ) : List Nat → ℤ × Int → ℤ × Int
  | [], p => p
  | m :: ms, p =>
    let w := cand m
    if w < p.1 then scanSplits cand ms (w, (m : Int)) else scanSplits cand ms p

/-- Embeds the table initialisation (lines 59-72): weight_ is FLT_MAX
everywhere and index_ is 0, then the 2-gon diagonal W[i][i+1] = 0,
S[i][i+1] = -1 for i in [0, n-2]. -/
def initTable (n : Nat) : Table := fun i k =>
  if k = i + 1 ∧ i + 1 ≤ n - 1 then (0, -1) else (FLTMAX, 0)

/-- The scan of all candidate splits for the interval (i,k), reading
sub-interval weights from the table T (lines 81-93). -/
def entryScan (cost : Nat → Nat → Nat → ℤ) (T : Table) (i k : Nat) : ℤ × Int :=
  scanSplits (fun m => (T i m).1 + cost i m k + (T m k).1)
    (List.range' (i + 1) (k - i - 1)) (FLTMAX, -1)

/-- Writing the scanned result into cell (i,k) (lines 95-96). -/
def fillEntry (cost : Nat → Nat → Nat → ℤ) (T : Table) (i k : Nat) : Table :=
  fun a b => if a = i ∧ b = k then entryScan cost T i k else T a b

/-- The i-loop for one chain length j (line 78). -/
def fillRow (cost : Nat → Nat → Nat → ℤ) (n j : Nat) (T : Table) : Table :=
  (List.range (n - j)).foldl (fun T i => fillEntry cost T i (i + j)) T

/-- Embeds the whole table-building phase (lines 59-98): initialise, then fill
by increasing chain length j = 2 .. n-1. -/
def buildTable (cost : Nat → Nat → Nat → ℤ) (n : Nat) : Table :=
  (List.range' 2 (n - 2)).foldl (fun T j => fillRow cost n j T) (initTable n)

/-- Reference recursion for the final table values, with fuel bounding the
interval gap; proof scaffolding relating the imperative fill to the DP
recurrence. -/
def WspecF (cost : Nat → Nat → Nat → ℤ) : Nat → Nat → Nat → ℤ × Int
  | 0, _, _ => (FLTMAX, 0)
  | fuel + 1, i, k =>
    if k = i + 1 then (0, -1)
    else if i + 2 ≤ k then
      scanSplits
        (fun m => (WspecF cost fuel i m).1 + cost i m k + (WspecF cost fuel m k).1)
        (List.range' (i + 1) (k - i - 1)) (FLTMAX, -1)
    else (FLTMAX, 0)

/-- The final value of cell (i,k) as a recursive function of the gap. -/
def Wspec (cost : Nat → Nat → Nat → ℤ) (i k : Nat) : ℤ × Int :=
  WspecF cost (k - i) i k

/-- Invariant of the outer chain-length loop: cells with gap at most J (and
in-range column) hold their final values, cells with a larger gap still hold
the initial values. -/
def FinalUpto (cost : Nat → Nat → Nat → ℤ) (n J : Nat) (T : Table) : Prop :=
  ∀ i k : Nat, k ≤ n - 1 →
    (k - i ≤ J → T i k = Wspec cost i k) ∧
    (J < k - i → T i k = (FLTMAX, 0))

/-- Events of one whole-mesh triangulation run.  query records a batch of
read-only mesh accesses (one per boundary-walk step, one per cost
evaluation); diagNonManifold records the "non-manifold polygon" diagnostic;
deleteFace and addTriangle record the two mesh mutations. -/
inductive Ev where
  | query
  | diagNonManifold
  | deleteFace (f : Face)
  | addTriangle (a b c : Vertex)
deriving DecidableEq

/-- Is the event a mesh mutation? -/
def Ev.isMutation : Ev → Bool
  | .deleteFace _ => true
  | .addTriangle _ _ _ => true
  | _ => false

/-- Is the event a face deletion? -/
def Ev.isDelete : Ev → Bool
  | .deleteFace _ => true
  | _ => false

/-- Is the event a triangle insertion? -/
def Ev.isAdd : Ev → Bool
  | .addTriangle _ _ _ => true
  | _ => false

/-- Is the event a read-only mesh access? -/
def Ev.isQuery : Ev → Bool
  | .query => true
  | _ => false

/-- Result of the boundary-collection walk (lines 34-49): either the
non-manifold abort, or the collected halfedge and vertex lists. -/
inductive CollectRes where
  | nonManifold (evs : List Ev)
  | ok (hs : List Halfedge) (vs : List Vertex) (evs : List Ev)
deriving DecidableEq

/-- Embeds the boundary-collection do-while loop (lines 37-49): check the
manifold predicate of the target vertex, push the halfedge and vertex, advance
with next_halfedge until back at the start.  Fuel models nontermination of a
corrupt next-cycle as none. -/
def collectLoop (M : SurfaceMesh) (h0 : Halfedge) :
    Nat → Halfedge → List Halfedge → List Vertex → List Ev → Option CollectRes
  | 0, _, _, _, _ => none
  | fuel + 1, h, hs, vs, evs =>
    if M.is_manifold (M.to_vertex h) = false then
      some (.nonManifold (evs ++ [Ev.query, Ev.diagNonManifold]))
    else
      let hs2 := hs ++ [h]
      let vs2 := vs ++ [M.to_vertex h]
      let evs2 := evs ++ [Ev.query]
      if M.next_halfedge h = h0 then some (.ok hs2 vs2 evs2)
      else collectLoop M h0 fuel (M.next_halfedge h) hs2 vs2 evs2

/-- The read-only mesh accesses performed by the table-building loops
(lines 75-98): one cost evaluation per (j, i, m) triple, in loop order. -/
def dpEvents (n : Nat) : List Ev :=
  (List.range' 2 (n - 2)).flatMap fun j =>
    (List.range (n - j)).flatMap fun i =>
      (List.range' (i + 1) (j - 1)).map fun _ => Ev.query

/-- An emitted triangle: the three vertex handles passed to add_triangle. -/
abbrev Tri := Vertex × Vertex × Vertex

/-- The add_triangle event of an emitted triangle. -/
def triEv (t : Tri) : Ev := Ev.addTriangle t.1 t.2.1 t.2.2

/-- Bounds-checked vertex-vector access: the source indexes vertices_ with a
plain int, so a negative or too-large index is out of bounds (undefined
behaviour), modelled as none. -/
def getV? (vs : List Vertex) (i : Int) : Option Vertex :=
  if h : 0 ≤ i ∧ i.toNat < vs.length then some (vs.get ⟨i.toNat, h.2⟩) else none

/-- Embeds the stack-based triangle emitter (lines 100-120): pop an interval,
skip it if shorter than 2, otherwise read the stored split, emit the triangle
(vertex[start], vertex[split], vertex[end]) and push both sub-intervals.
Out-of-range table or vertex accesses (undefined behaviour in the source) are
modelled as none; fuel models a diverging loop as none. -/
def emitLoop (S : Nat → Nat → Int) (n : Nat) (vs : List Vertex) :
    Nat → List (Int × Int) → List Tri → Option (List Tri)
  | _, [], acc => some acc
  | 0, _ :: _, _ => none
  | fuel + 1, p :: rest, acc =>
    if p.2 - p.1 < 2 then emitLoop S n vs fuel rest acc
    else if 0 ≤ p.1 ∧ p.1 < (n : Int) ∧ 0 ≤ p.2 ∧ p.2 < (n : Int) then
      let split := S p.1.toNat p.2.toNat
      match getV? vs p.1, getV? vs split, getV? vs p.2 with
      | some a, some b, some c =>
        emitLoop S n vs fuel ((split, p.2) :: (p.1, split) :: rest) (acc ++ [(a, b, c)])
      | _, _, _ => none
    else none

/-- Embeds SurfaceTriangulation::triangulate(Face) (lines 30-128) as the event
trace of one face: collect the boundary (aborting on a non-manifold vertex),
return unchanged if n <= 3, otherwise delete the polygon, build the DP tables
and emit the triangles of the split tree rooted at (0, n-1). -/
def triangulateFace (M : SurfaceMesh) (f : Face) (fuel : Nat) : Option (List Ev) :=
  match collectLoop M (M.halfedge f) fuel (M.halfedge f) [] [] [] with
  | none => none
  | some (.nonManifold evs) => some evs
  | some (.ok hs vs evs) =>
    if hs.length ≤ 3 then some evs
    else
      match emitLoop (fun a b => (buildTable (compute_weight M vs) hs.length a b).2)
          hs.length vs fuel [((0 : Int), (hs.length : Int) - 1)] [] with
      | none => none
      | some tris =>
        some (evs ++ [Ev.deleteFace f] ++ dpEvents hs.length ++ tris.map triEv)

/-- Embeds the whole-mesh loop of SurfaceTriangulation::triangulate()
(lines 18-26): triangulate every face in order.  The final garbage collection
and diagnostic printout touch no face and are omitted from the trace. -/
def triangulateAll (M : SurfaceMesh) (fuel : Nat) : List Face → Option (List Ev)
  | [] => some []
  | f :: rest =>
    match triangulateFace M f fuel, triangulateAll M fuel rest with
    | some t, some ts => some (t ++ ts)
    | _, _ => none

/-- Modelled from the spec: the observable mesh quantities named by §8 (face
count, vertex set, edge set), and how the two mutation primitives of §6 act on
them: delete_face removes the face, add_triangle inserts a fresh triangular
face reusing existing vertex handles and its three edges.  Queries and
diagnostics change nothing. -/
structure MeshData where
  faces : List Face
  verts : List Vertex
  edges : List (Vertex × Vertex)
deriving DecidableEq

/-- Effect of one traced event on the observable mesh quantities. -/
def applyEv (d : MeshData) : Ev → MeshData
  | .deleteFace f => { d with faces := d.faces.erase f }
  | .addTriangle a b c =>
    { d with
      faces := d.faces ++ [d.faces.foldl max 0 + 1]
      edges := d.edges ++ [(a, b), (b, c), (c, a)] }
  | _ => d

/-- Effect of a whole event trace. -/
def applyTrace (d : MeshData) (evs : List Ev) : MeshData := evs.foldl applyEv d

/-- Holds when no read-only mesh access occurs after any mutation in the
trace: the formalisation of "collection and DP computation precede all
mutation". -/
def noQueryAfterMutation : List Ev → Bool
  | [] => true
  | e :: rest =>
    (!e.isMutation || rest.all fun x => !x.isQuery) && noQueryAfterMutation rest

/-- Split-tree reachability from the root interval (0, n-1) through stored
split values that are valid (strictly inside the interval). -/
inductive Reach (S : Nat → Nat → Int) (n : Nat) : Nat → Nat → Prop
  | root : Reach S n 0 (n - 1)
  | left : ∀ {s e m : Nat}, Reach S n s e → s + 2 ≤ e → S s e = (m : Int) →
      s < m → m < e → Reach S n s m
  | right : ∀ {s e m : Nat}, Reach S n s e → s + 2 ≤ e → S s e = (m : Int) →
      s < m → m < e → Reach S n m e

/-- A triangle produced by the emitter from some reachable interval. -/
def EmittedTri (S : Nat → Nat → Int) (n : Nat) (vs : List Vertex) (t : Tri) : Prop :=
  ∃ s m e : Nat, Reach S n s e ∧ s + 2 ≤ e ∧ S s e = (m : Int) ∧ s < m ∧ m < e ∧
    getV? vs (s : Int) = some t.1 ∧ getV? vs (m : Int) = some t.2.1 ∧
    getV? vs (e : Int) = some t.2.2

/-- Fuel consumed by the emitter on one stack entry (number of loop
iterations of its split sub-tree). -/
def fcost (p : Nat × Nat) : Nat := 2 * (p.2 - p.1) - 1

/-- Total fuel needed for a stack. -/
def stackCost (l : List (Nat × Nat)) : Nat := (l.map fcost).sum

/-- Triangles emitted from one stack entry. -/
def tcnt (p : Nat × Nat) : Nat := p.2 - p.1 - 1

/-- Total triangles emitted from a stack. -/
def triSum (l : List (Nat × Nat)) : Nat := (l.map tcnt).sum

/-- A planar unit square as a quad face: four boundary halfedges, all vertices
manifold, no pre-existing diagonal edges. -/
def squareMesh : SurfaceMesh where
  halfedge := fun _ => 0
  next_halfedge := fun h => (h + 1) % 4
  to_vertex := fun h => h
  opposite_halfedge := fun h => h
  is_boundary := fun _ => true
  is_manifold := fun _ => true
  find_halfedge := fun _ _ => none
  point := fun v =>
    if v = 0 then ⟨0, 0, 0⟩
    else if v = 1 then ⟨1, 0, 0⟩
    else if v = 2 then ⟨1, 1, 0⟩
    else ⟨0, 1, 0⟩

/-- The unit square quad, but the diagonal between vertices 0 and 2 already
exists in the mesh as an interior (non-boundary) edge, halfedge 10 with
opposite 11. -/
def quadIntMesh : SurfaceMesh where
  halfedge := fun _ => 0
  next_halfedge := fun h => (h + 1) % 4
  to_vertex := fun h => h
  opposite_halfedge := fun h => if h = 10 then 11 else if h = 11 then 10 else h
  is_boundary := fun h => !(h == 10 || h == 11)
  is_manifold := fun _ => true
  find_halfedge := fun a b =>
    if (a = 0 ∧ b = 2) ∨ (a = 2 ∧ b = 0) then some 10 else none
  point := squareMesh.point

/-- A quad in which every vertex pair is joined by an interior edge, so every
candidate triangle is infeasible. -/
def allIntMesh : SurfaceMesh where
  halfedge := fun _ => 0
  next_halfedge := fun h => (h + 1) % 4
  to_vertex := fun h => h
  opposite_halfedge := fun h => h
  is_boundary := fun _ => false
  is_manifold := fun _ => true
  find_halfedge := fun _ _ => some 10
  point := squareMesh.point

/-- A pentagon in which every vertex pair is joined by an interior edge, so
every candidate triangle is infeasible. -/
def pentIntMesh : SurfaceMesh where
  halfedge := fun _ => 0
  next_halfedge := fun h => (h + 1) % 5
  to_vertex := fun h => h
  opposite_halfedge := fun h => h
  is_boundary := fun _ => false
  is_manifold := fun _ => true
  find_halfedge := fun _ _ => some 10
  point := squareMesh.point

/-- A triangle face: three boundary halfedges, all manifold. -/
def triMesh : SurfaceMesh where
  halfedge := fun _ => 0
  next_halfedge := fun h => (h + 1) % 3
  to_vertex := fun h => h
  opposite_halfedge := fun h => h
  is_boundary := fun _ => true
  is_manifold := fun _ => true
  find_halfedge := fun _ _ => none
  point := squareMesh.point

/-- A quad one of whose boundary vertices (vertex 1) fails the manifold
predicate. -/
def nonManMesh : SurfaceMesh where
  halfedge := fun _ => 0
  next_halfedge := fun h => (h + 1) % 4
  to_vertex := fun h => h
  opposite_halfedge := fun h => h
  is_boundary := fun _ => true
  is_manifold := fun v => !(v == 1)
  find_halfedge := fun _ _ => none
  point := squareMesh.point

/-- Cost function of the square quad face. -/
def squareCost : Nat → Nat → Nat → ℤ := compute_weight squareMesh [0, 1, 2, 3]

/-- Cost function of the quad with the pre-existing interior diagonal. -/
def quadIntCost : Nat → Nat → Nat → ℤ := compute_weight quadIntMesh [0, 1, 2, 3]

/-- Cost function of the fully conflicted quad. -/
def allIntCost : Nat → Nat → Nat → ℤ := compute_weight allIntMesh [0, 1, 2, 3]

/-- Cost function of the fully conflicted pentagon. -/
def pentIntCost : Nat → Nat → Nat → ℤ := compute_weight pentIntMesh [0, 1, 2, 3, 4]

/-- Membership in a consecutive range, in arithmetic form. -/
theorem mem_range'_iff {s n m : Nat} : m ∈ List.range' s n ↔ s ≤ m ∧ m < s + n :=
  List.mem_range'_1

/-- The scan is insensitive to the candidate function outside the scanned
list. -/
theorem scanSplits_congr {c1 c2 : Nat → ℤ} {ms : List Nat} (p : ℤ × Int)
    (h : ∀ m ∈ ms, c1 m = c2 m) : scanSplits c1 ms p = scanSplits c2 ms p := by
  induction ms generalizing p with
  | nil => rfl
  | cons m ms ih =>
    simp only [scanSplits]
    rw [h m (by simp)]
    split
    · exact ih _ fun x hx => h x (by simp [hx])
    · exact ih _ fun x hx => h x (by simp [hx])

/-- The weight component of the scan is the running minimum. -/
theorem scanSplits_fst (cand : Nat → ℤ) (ms : List Nat) (p : ℤ × Int) :
    (scanSplits cand ms p).1 = ms.foldl (fun w m => min w (cand m)) p.1 := by
  induction ms generalizing p with
  | nil => rfl
  | cons m ms ih =>
    simp only [scanSplits, List.foldl_cons]
    by_cases h : cand m < p.1
    · rw [if_pos h, ih, min_eq_right h.le]
    · rw [if_neg h, ih, min_eq_left (le_of_not_lt h)]

/-- The scan never increases the running minimum. -/
theorem scanSplits_fst_le (cand : Nat → ℤ) (ms : List Nat) (p : ℤ × Int) :
    (scanSplits cand ms p).1 ≤ p.1 := by
  induction ms generalizing p with
  | nil => exact le_rfl
  | cons m ms ih =>
    simp only [scanSplits]
    by_cases h : cand m < p.1
    · rw [if_pos h]; exact (ih _).trans h.le
    · rw [if_neg h]; exact ih _

/-- If no candidate beats the initial weight, the scan returns its initial
pair unchanged. -/
theorem scanSplits_of_ge (cand : Nat → ℤ) (ms : List Nat) (p : ℤ × Int)
    (h : ∀ m ∈ ms, p.1 ≤ cand m) : scanSplits cand ms p = p := by
  induction ms with
  | nil => rfl
  | cons m ms ih =>
    simp only [scanSplits]
    rw [if_neg (not_lt.mpr (h m (by simp)))]
    exact ih fun x hx => h x (by simp [hx])

/-- If the final weight did not drop below the initial one, nothing was ever
selected. -/
theorem scanSplits_eq_of_ge (cand : Nat → ℤ) (ms : List Nat) (w0 : ℤ) (i0 : Int)
    (h : w0 ≤ (scanSplits cand ms (w0, i0)).1) : scanSplits cand ms (w0, i0) = (w0, i0) := by
  induction ms with
  | nil => rfl
  | cons m ms ih =>
    by_cases hm : cand m < w0
    · have hle : (scanSplits cand ms (cand m, (m : Int))).1 ≤ cand m :=
        scanSplits_fst_le cand ms (cand m, (m : Int))
      have hlt : (scanSplits cand (m :: ms) (w0, i0)).1 < w0 := by
        simp only [scanSplits, if_pos hm]
        exact hle.trans_lt hm
      exact absurd h (not_le.mpr hlt)
    · have he : scanSplits cand (m :: ms) (w0, i0) = scanSplits cand ms (w0, i0) := by
        simp only [scanSplits, if_neg hm]
      rw [he] at h ⊢
      exact ih h

/-- If the final weight dropped below the initial one, the stored index is the
first-encountered candidate attaining the final weight: all candidates ahead
of it in scan order are strictly larger. -/
theorem scanSplits_split_lt (cand : Nat → ℤ) (ms : List Nat) (w0 : ℤ) (i0 : Int)
    (h : (scanSplits cand ms (w0, i0)).1 < w0) :
    ∃ (l1 : List Nat) (m : Nat) (l2 : List Nat), ms = l1 ++ m :: l2 ∧
      (scanSplits cand ms (w0, i0)).2 = (m : Int) ∧
      cand m = (scanSplits cand ms (w0, i0)).1 ∧
      ∀ m2 ∈ l1, (scanSplits cand ms (w0, i0)).1 < cand m2 := by
  induction ms generalizing w0 i0 with
  | nil => exact absurd h (lt_irrefl w0)
  | cons m ms ih =>
    by_cases hm : cand m < w0
    · have he : scanSplits cand (m :: ms) (w0, i0) =
          scanSplits cand ms (cand m, (m : Int)) := by
        simp only [scanSplits, if_pos hm]
      rw [he] at h ⊢
      by_cases hr : (scanSplits cand ms (cand m, (m : Int))).1 < cand m
      · obtain ⟨l1, m1, l2, hms, h2, h3, h4⟩ := ih (cand m) (m : Int) hr
        exact ⟨m :: l1, m1, l2, by rw [hms]; rfl, h2, h3, fun m2 hm2 => by
          rcases List.mem_cons.mp hm2 with rfl | hm2
          · exact hr
          · exact h4 m2 hm2⟩
      · have heq := scanSplits_eq_of_ge cand ms (cand m) (m : Int) (not_lt.mp hr)
        rw [heq]
        exact ⟨[], m, ms, rfl, rfl, rfl, by simp⟩
    · have he : scanSplits cand (m :: ms) (w0, i0) = scanSplits cand ms (w0, i0) := by
        simp only [scanSplits, if_neg hm]
      rw [he] at h ⊢
      obtain ⟨l1, m1, l2, hms, h2, h3, h4⟩ := ih w0 i0 h
      exact ⟨m :: l1, m1, l2, by rw [hms]; rfl, h2, h3, fun m2 hm2 => by
        rcases List.mem_cons.mp hm2 with rfl | hm2
        · exact h.trans_le (le_of_not_lt hm)
        · exact h4 m2 hm2⟩

/-- Consecutive ranges are strictly increasing. -/
theorem range'_pairwise_lt (s n : Nat) : (List.range' s n).Pairwise (· < ·) := by
  induction n generalizing s with
  | zero => simp
  | succ n ih =>
    rw [List.range'_succ s n 1]
    refine List.Pairwise.cons ?_ (ih (s + 1))
    intro b hb
    have := mem_range'_iff.mp hb
    omega

/-- Below the diagonal the reference table is the untouched initial value. -/
theorem WspecF_low (cost : Nat → Nat → Nat → ℤ) (f i k : Nat) (h : k ≤ i) :
    WspecF cost f i k = (FLTMAX, 0) := by
  cases f with
  | zero => rfl
  | succ f =>
    simp only [WspecF]
    rw [if_neg (by omega), if_neg (by omega)]

/-- The reference recursion is fuel-insensitive once the fuel covers the
gap. -/
theorem WspecF_stable (cost : Nat → Nat → Nat → ℤ) :
    ∀ f1 f2 i k, k - i ≤ f1 → k - i ≤ f2 → WspecF cost f1 i k = WspecF cost f2 i k := by
  intro f1
  induction f1 with
  | zero =>
    intro f2 i k h1 _
    rw [WspecF_low cost 0 i k (by omega), WspecF_low cost f2 i k (by omega)]
  | succ f1 ih =>
    intro f2 i k h1 h2
    by_cases hk : k ≤ i
    · rw [WspecF_low cost _ i k hk, WspecF_low cost f2 i k hk]
    · cases f2 with
      | zero => omega
      | succ f2 =>
        by_cases h1k : k = i + 1
        · simp only [WspecF, if_pos h1k]
        · have hik : i + 2 ≤ k := by omega
          simp only [WspecF]
          rw [if_neg h1k, if_pos hik, if_neg h1k, if_pos hik]
          apply scanSplits_congr
          intro m hm
          have hb := mem_range'_iff.mp hm
          rw [ih f2 i m (by omega) (by omega), ih f2 m k (by omega) (by omega)]

/-- Final value of a 2-gon cell. -/
theorem Wspec_gap1 (cost : Nat → Nat → Nat → ℤ) (i : Nat) :
    Wspec cost i (i + 1) = (0, -1) := by
  have h : i + 1 - i = 1 := by omega
  rw [Wspec, h]
  simp [WspecF]

/-- Final value below the diagonal. -/
theorem Wspec_low (cost : Nat → Nat → Nat → ℤ) {i k : Nat} (h : k ≤ i) :
    Wspec cost i k = (FLTMAX, 0) :=
  WspecF_low cost (k - i) i k h

/-- The DP recurrence satisfied by the final table values: a scan of all
candidate splits of the interval. -/
theorem Wspec_rec (cost : Nat → Nat → Nat → ℤ) {i k : Nat} (h : i + 2 ≤ k) :
    Wspec cost i k = scanSplits
      (fun m => (Wspec cost i m).1 + cost i m k + (Wspec cost m k).1)
      (List.range' (i + 1) (k - i - 1)) (FLTMAX, -1) := by
  have hg : k - i = (k - i - 1) + 1 := by omega
  rw [Wspec, hg]
  simp only [WspecF]
  rw [if_neg (by omega), if_pos h]
  apply scanSplits_congr
  intro m hm
  have hb := mem_range'_iff.mp hm
  rw [WspecF_stable cost (k - i - 1) (m - i) i m (by omega) (by omega),
    WspecF_stable cost (k - i - 1) (k - m) m k (by omega) (by omega)]
  rfl

/-- The sentinel is positive. -/
theorem FLTMAX_pos : 0 < FLTMAX := by norm_num [FLTMAX]

/-- A scan starting from a nonnegative weight over nonnegative candidates
stays nonnegative. -/
theorem scanSplits_fst_nonneg (cand : Nat → ℤ) (ms : List Nat) (p : ℤ × Int)
    (h0 : 0 ≤ p.1) (h : ∀ m ∈ ms, 0 ≤ cand m) : 0 ≤ (scanSplits cand ms p).1 := by
  induction ms generalizing p with
  | nil => exact h0
  | cons m ms ih =>
    simp only [scanSplits]
    by_cases hm : cand m < p.1
    · rw [if_pos hm]
      exact ih _ (h m (by simp)) fun x hx => h x (by simp [hx])
    · rw [if_neg hm]
      exact ih _ h0 fun x hx => h x (by simp [hx])

/-- Each row write leaves all cells read by the scans of that row untouched,
so the whole i-loop is the pointwise scan of the table it started from. -/
theorem foldl_fillEntry_apply (cost : Nat → Nat → Nat → ℤ) (j : Nat) (hj : 1 ≤ j) :
    ∀ (l : List Nat) (T : Table) (a b : Nat),
      (l.foldl (fun T i => fillEntry cost T i (i + j)) T) a b =
        if a ∈ l ∧ b = a + j then entryScan cost T a (a + j) else T a b := by
  intro l
  induction l with
  | nil => intro T a b; simp
  | cons i0 l ih =>
    intro T a b
    rw [List.foldl_cons, ih]
    have hfe : ∀ x y : Nat, ¬(x = i0 ∧ y = i0 + j) →
        fillEntry cost T i0 (i0 + j) x y = T x y := by
      intro x y hxy
      simp only [fillEntry, if_neg hxy]
    have hscan : ∀ a2 : Nat,
        entryScan cost (fillEntry cost T i0 (i0 + j)) a2 (a2 + j) =
          entryScan cost T a2 (a2 + j) := by
      intro a2
      apply scanSplits_congr
      intro m hm
      have hb := mem_range'_iff.mp hm
      rw [hfe a2 m (by omega), hfe m (a2 + j) (by omega)]
    by_cases hb : b = a + j
    · subst hb
      by_cases ha : a ∈ l
      · rw [if_pos ⟨ha, rfl⟩, if_pos ⟨List.mem_cons_of_mem i0 ha, rfl⟩, hscan a]
      · rw [if_neg fun hx => ha hx.1]
        by_cases ha0 : a = i0
        · subst ha0
          rw [if_pos ⟨List.mem_cons_self a l, rfl⟩]
          simp [fillEntry]
        · rw [if_neg fun hx => by
            rcases List.mem_cons.mp hx.1 with h | h
            · exact ha0 h
            · exact ha h]
          exact hfe a (a + j) fun hx => ha0 hx.1
    · rw [if_neg fun hx => hb hx.2, if_neg fun hx => hb hx.2]
      exact hfe a b fun hx => hb (by omega)

/-- Pointwise description of one row of the fill. -/
theorem fillRow_apply (cost : Nat → Nat → Nat → ℤ) (n j : Nat) (hj : 1 ≤ j)
    (T : Table) (a b : Nat) :
    fillRow cost n j T a b =
      if a < n - j ∧ b = a + j then entryScan cost T a (a + j) else T a b := by
  rw [fillRow, foldl_fillEntry_apply cost j hj]
  simp only [List.mem_range]

/-- The initial table is final up to gap 1. -/
theorem initTable_final (cost : Nat → Nat → Nat → ℤ) (n : Nat) :
    FinalUpto cost n 1 (initTable n) := by
  intro i k hk
  constructor
  · intro hg
    by_cases h1 : k = i + 1
    · subst h1
      rw [Wspec_gap1, initTable, if_pos ⟨rfl, by omega⟩]
    · have hki : k ≤ i := by omega
      rw [Wspec_low cost hki, initTable, if_neg fun hx => h1 hx.1]
  · intro hg
    rw [initTable, if_neg fun hx => by omega]

/-- Processing chain length J+1 extends the invariant by one gap. -/
theorem fillRow_final (cost : Nat → Nat → Nat → ℤ) (n J : Nat) (hJ : 1 ≤ J)
    (T : Table) (hT : FinalUpto cost n J T) :
    FinalUpto cost n (J + 1) (fillRow cost n (J + 1) T) := by
  intro a b hb
  constructor
  · intro hg
    rw [fillRow_apply cost n (J + 1) (by omega)]
    by_cases hw : a < n - (J + 1) ∧ b = a + (J + 1)
    · rw [if_pos hw]
      obtain ⟨ha, hb2⟩ := hw
      subst hb2
      rw [Wspec_rec cost (by omega)]
      simp only [entryScan]
      apply scanSplits_congr
      intro m hm
      have hmb := mem_range'_iff.mp hm
      rw [(hT a m (by omega)).1 (by omega), (hT m (a + (J + 1)) (by omega)).1 (by omega)]
    · rw [if_neg hw]
      by_cases hgJ : b - a ≤ J
      · exact (hT a b hb).1 hgJ
      · exfalso
        have hba : b = a + (J + 1) := by omega
        exact hw ⟨by omega, hba⟩
  · intro hg
    rw [fillRow_apply cost n (J + 1) (by omega)]
    rw [if_neg fun hx => by omega]
    exact (hT a b hb).2 (by omega)

/-- The outer j-loop raises the invariant to cover every processed gap. -/
theorem buildTable_final_aux (cost : Nat → Nat → Nat → ℤ) (n : Nat) :
    ∀ (len j0 : Nat) (T : Table), 2 ≤ j0 → FinalUpto cost n (j0 - 1) T →
      FinalUpto cost n (j0 - 1 + len)
        ((List.range' j0 len).foldl (fun T j => fillRow cost n j T) T) := by
  intro len
  induction len with
  | zero => intro j0 T h2 hT; simpa using hT
  | succ len ih =>
    intro j0 T h2 hT
    rw [List.range'_succ j0 len 1, List.foldl_cons]
    have hstep : FinalUpto cost n j0 (fillRow cost n j0 T) := by
      have h := fillRow_final cost n (j0 - 1) (by omega) T hT
      have heq : j0 - 1 + 1 = j0 := by omega
      rw [heq] at h
      exact h
    have h := ih (j0 + 1) (fillRow cost n j0 T) (by omega) (by simpa using hstep)
    have hnum : j0 - 1 + (len + 1) = j0 + 1 - 1 + len := by omega
    rw [hnum]
    exact h

/-- Every in-range cell of the built table holds the value of the DP
recurrence. -/
theorem buildTable_eq_Wspec (cost : Nat → Nat → Nat → ℤ) (n : Nat) {i k : Nat}
    (hk : k ≤ n - 1) : buildTable cost n i k = Wspec cost i k := by
  have h := buildTable_final_aux cost n (n - 2) 2 (initTable n) (le_refl 2)
    (initTable_final cost n)
  exact (h i k hk).1 (by omega)

/-- All final weights are nonnegative when all costs are. -/
theorem Wspec_fst_nonneg (cost : Nat → Nat → Nat → ℤ)
    (hc : ∀ a b c, 0 ≤ cost a b c) :
    ∀ g i k, k - i ≤ g → 0 ≤ (Wspec cost i k).1 := by
  intro g
  induction g with
  | zero =>
    intro i k hg
    by_cases hk : k ≤ i
    · rw [Wspec_low cost hk]; exact FLTMAX_pos.le
    · omega
  | succ g ih =>
    intro i k hg
    by_cases hk : k ≤ i
    · rw [Wspec_low cost hk]; exact FLTMAX_pos.le
    · by_cases h1 : k = i + 1
      · subst h1; rw [Wspec_gap1]
      · rw [Wspec_rec cost (by omega)]
        apply scanSplits_fst_nonneg _ _ _ FLTMAX_pos.le
        intro m hm
        have hb := mem_range'_iff.mp hm
        have h1 := ih i m (by omega)
        have h2 := ih m k (by omega)
        have h3 := hc i m k
        linarith

/-- All final weights are nonnegative (gap-free form). -/
theorem Wspec_nonneg (cost : Nat → Nat → Nat → ℤ)
    (hc : ∀ a b c, 0 ≤ cost a b c) (i k : Nat) : 0 ≤ (Wspec cost i k).1 :=
  Wspec_fst_nonneg cost hc (k - i) i k le_rfl

/-- A feasible cell stores a valid split: its index is strictly inside the
interval, attains the stored weight, and all three summands of the winning
candidate are themselves below the sentinel. -/
theorem Wspec_split_of_lt (cost : Nat → Nat → Nat → ℤ)
    (hc : ∀ a b c, 0 ≤ cost a b c) {i k : Nat}
    (h2 : i + 2 ≤ k) (hlt : (Wspec cost i k).1 < FLTMAX) :
    ∃ m : Nat, i < m ∧ m < k ∧ (Wspec cost i k).2 = (m : Int) ∧
      (Wspec cost i m).1 + cost i m k + (Wspec cost m k).1 = (Wspec cost i k).1 ∧
      (Wspec cost i m).1 < FLTMAX ∧ (Wspec cost m k).1 < FLTMAX ∧
      cost i m k < FLTMAX := by
  rw [Wspec_rec cost h2] at hlt ⊢
  obtain ⟨l1, m, l2, hms, hidx, hval, _⟩ := scanSplits_split_lt _ _ _ _ hlt
  have hmem : m ∈ List.range' (i + 1) (k - i - 1) := by
    rw [hms]; exact List.mem_append_right l1 (List.mem_cons_self m l2)
  have hb := mem_range'_iff.mp hmem
  have hn1 := Wspec_nonneg cost hc i m
  have hn2 := Wspec_nonneg cost hc m k
  have hn3 := hc i m k
  refine ⟨m, by omega, by omega, hidx, hval, by linarith [hval, hlt], by linarith, by linarith⟩

/-- In-bounds vertex access succeeds. -/
theorem getV?_eq_some {vs : List Vertex} {i : Int} (h0 : 0 ≤ i)
    (h1 : i.toNat < vs.length) : getV? vs i = some (vs.get ⟨i.toNat, h1⟩) := by
  rw [getV?, dif_pos ⟨h0, h1⟩]

/-- Negative vertex access is out of bounds. -/
theorem getV?_neg {vs : List Vertex} {i : Int} (h : i < 0) : getV? vs i = none := by
  rw [getV?, dif_neg]
  rintro ⟨h0, _⟩
  omega

/-- In-bounds vertex access at a natural index. -/
theorem getV?_natCast {vs : List Vertex} {s : Nat} (h : s < vs.length) :
    getV? vs (s : Int) = some (vs.get ⟨s, h⟩) := by
  have h2 : ((s : Int)).toNat < vs.length := by simpa using h
  rw [getV?_eq_some (Int.natCast_nonneg s) h2]
  exact congrArg some (congrArg vs.get (Fin.ext (by simp)))

/-- Every reachable interval is proper and in range. -/
theorem Reach_bounds {S : Nat → Nat → Int} {n : Nat} (hn : 2 ≤ n) {s e : Nat}
    (h : Reach S n s e) : s < e ∧ e ≤ n - 1 := by
  induction h with
  | root => omega
  | left _ _ _ hsm hme ih => omega
  | right _ _ _ hsm hme ih => omega

/-- The emitter ignores fuel when the stack is empty. -/
theorem emitLoop_nil (S : Nat → Nat → Int) (n : Nat) (vs : List Vertex)
    (fuel : Nat) (acc : List Tri) : emitLoop S n vs fuel [] acc = some acc := by
  cases fuel <;> rfl

/-- Fuel cost of a stack decomposes over its head. -/
theorem stackCost_cons (p : Nat × Nat) (l : List (Nat × Nat)) :
    stackCost (p :: l) = fcost p + stackCost l := by
  simp [stackCost]

/-- Triangle count of a stack decomposes over its head. -/
theorem triSum_cons (p : Nat × Nat) (l : List (Nat × Nat)) :
    triSum (p :: l) = tcnt p + triSum l := by
  simp [triSum]

/-- Main emitter lemma: on a stack of reachable intervals whose reachable
sub-intervals all carry valid splits, the loop terminates within the stated
fuel, performs only in-bounds accesses, and emits exactly the tally of
triangles of the split trees on the stack, each triangle coming from a
reachable interval. -/
theorem emitLoop_ok (S : Nat → Nat → Int) (n : Nat) (vs : List Vertex)
    (hvs : vs.length = n) (hn : 2 ≤ n)
    (HS : ∀ s e : Nat, Reach S n s e → s + 2 ≤ e →
      (s : Int) < S s e ∧ S s e < (e : Int)) :
    ∀ (fuel : Nat) (todo : List (Nat × Nat)) (acc : List Tri),
      (∀ p ∈ todo, Reach S n p.1 p.2) →
      stackCost todo ≤ fuel →
      ∃ res, emitLoop S n vs fuel (todo.map fun p => ((p.1 : Int), (p.2 : Int))) acc
          = some res ∧
        res.length = acc.length + triSum todo ∧
        ∀ t ∈ res, t ∈ acc ∨ EmittedTri S n vs t := by
  intro fuel
  induction fuel with
  | zero =>
    intro todo acc hR hF
    cases todo with
    | nil => exact ⟨acc, emitLoop_nil S n vs 0 acc, by simp [triSum], fun t ht => Or.inl ht⟩
    | cons p rest =>
      exfalso
      have hb := Reach_bounds hn (hR p (by simp))
      have h1 : 1 ≤ fcost p := by rw [fcost]; omega
      rw [stackCost_cons] at hF
      omega
  | succ fuel ih =>
    intro todo acc hR hF
    cases todo with
    | nil => exact ⟨acc, emitLoop_nil S n vs _ acc, by simp [triSum], fun t ht => Or.inl ht⟩
    | cons p rest =>
      obtain ⟨s, e⟩ := p
      have hRse : Reach S n s e := hR (s, e) (by simp)
      have hb := Reach_bounds hn hRse
      rw [stackCost_cons] at hF
      by_cases hgap : e < s + 2
      · have he1 : e = s + 1 := by omega
        have hstep : emitLoop S n vs (fuel + 1)
            (((s, e) :: rest).map fun p => ((p.1 : Int), (p.2 : Int))) acc =
            emitLoop S n vs fuel (rest.map fun p => ((p.1 : Int), (p.2 : Int))) acc := by
          simp only [List.map_cons, emitLoop]
          rw [if_pos (by push_cast; omega)]
        obtain ⟨res, h1, h2, h3⟩ := ih rest acc (fun q hq => hR q (by simp [hq]))
          (by rw [fcost] at hF; omega)
        refine ⟨res, hstep.trans h1, ?_, h3⟩
        rw [h2, triSum_cons]
        have : tcnt (s, e) = 0 := by rw [tcnt]; omega
        omega
      · have hse : s + 2 ≤ e := by omega
        obtain ⟨hs1, hs2⟩ := HS s e hRse hse
        have hSnn : 0 ≤ S s e := le_trans (Int.natCast_nonneg s) hs1.le
        set m := (S s e).toNat with hmdef
        have hm : S s e = (m : Int) := (Int.toNat_of_nonneg hSnn).symm
        have hsm : s < m := by omega
        have hme : m < e := by omega
        have hsn : s < vs.length := by omega
        have hmn : m < vs.length := by omega
        have hen : e < vs.length := by omega
        have hga : getV? vs (s : Int) = some (vs.get ⟨s, hsn⟩) := getV?_natCast hsn
        have hgb : getV? vs (m : Int) = some (vs.get ⟨m, hmn⟩) := getV?_natCast hmn
        have hgc : getV? vs (e : Int) = some (vs.get ⟨e, hen⟩) := getV?_natCast hen
        have hstep : emitLoop S n vs (fuel + 1)
            (((s, e) :: rest).map fun p => ((p.1 : Int), (p.2 : Int))) acc =
            emitLoop S n vs fuel
              (((m, e) :: (s, m) :: rest).map fun p => ((p.1 : Int), (p.2 : Int)))
              (acc ++ [(vs.get ⟨s, hsn⟩, vs.get ⟨m, hmn⟩, vs.get ⟨e, hen⟩)]) := by
          simp only [List.map_cons, emitLoop]
          rw [if_neg (by push_cast; omega), if_pos (by push_cast; omega)]
          simp only [Int.toNat_natCast]
          rw [hm, hga, hgb, hgc]
        have hR2 : ∀ q ∈ (m, e) :: (s, m) :: rest, Reach S n q.1 q.2 := by
          intro q hq
          rcases List.mem_cons.mp hq with rfl | hq
          · exact Reach.right hRse hse hm hsm hme
          · rcases List.mem_cons.mp hq with rfl | hq
            · exact Reach.left hRse hse hm hsm hme
            · exact hR q (by simp [hq])
        have hF2 : stackCost ((m, e) :: (s, m) :: rest) ≤ fuel := by
          rw [stackCost_cons, stackCost_cons]
          rw [fcost] at hF
          simp only [fcost]
          omega
        obtain ⟨res, h1, h2, h3⟩ := ih _ _ hR2 hF2
        refine ⟨res, hstep.trans h1, ?_, ?_⟩
        · rw [h2, triSum_cons, triSum_cons, triSum_cons]
          simp only [tcnt, List.length_append, List.length_cons, List.length_nil]
          omega
        · intro t ht
          rcases h3 t ht with hacc | hemit
          · rcases List.mem_append.mp hacc with hacc | hnew
            · exact Or.inl hacc
            · refine Or.inr ?_
              have ht2 : t = (vs.get ⟨s, hsn⟩, vs.get ⟨m, hmn⟩, vs.get ⟨e, hen⟩) := by
                simpa using hnew
              exact ⟨s, m, e, hRse, hse, hm, hsm, hme, by rw [ht2, hga],
                by rw [ht2, hgb], by rw [ht2, hgc]⟩
          · exact Or.inr hemit

/-- A successful vertex lookup returns a member of the vertex list. -/
theorem getV?_mem {vs : List Vertex} {i : Int} {v : Vertex}
    (h : getV? vs i = some v) : v ∈ vs := by
  rw [getV?] at h
  split at h
  · injection h with h2
    rw [← h2]
    exact List.get_mem vs _ _
  · cases h

/-- On the success path, the boundary walk appends only query events. -/
theorem collectLoop_ok_query (M : SurfaceMesh) (h0 : Halfedge) :
    ∀ (fuel : Nat) (h : Halfedge) (hs0 : List Halfedge) (vs0 : List Vertex)
      (evs0 : List Ev) (hs : List Halfedge) (vs : List Vertex) (evs : List Ev),
      (∀ e ∈ evs0, e = Ev.query) →
      collectLoop M h0 fuel h hs0 vs0 evs0 = some (.ok hs vs evs) →
      ∀ e ∈ evs, e = Ev.query := by
  intro fuel
  induction fuel with
  | zero =>
    intro h hs0 vs0 evs0 hs vs evs hq hc
    exact absurd hc (by simp [collectLoop])
  | succ fuel ih =>
    intro h hs0 vs0 evs0 hs vs evs hq hc
    simp only [collectLoop] at hc
    by_cases hman : M.is_manifold (M.to_vertex h) = false
    · rw [if_pos hman] at hc
      simp at hc
    · rw [if_neg hman] at hc
      have hq2 : ∀ e ∈ evs0 ++ [Ev.query], e = Ev.query := by
        intro e he
        rcases List.mem_append.mp he with he | he
        · exact hq e he
        · simpa using he
      by_cases hnext : M.next_halfedge h = h0
      · rw [if_pos hnext] at hc
        have hevs : evs = evs0 ++ [Ev.query] := by
          injection hc with hc2
          injection hc2 with _ _ h3
          exact h3.symm
        rw [hevs]
        exact hq2
      · rw [if_neg hnext] at hc
        exact ih _ _ _ _ _ _ _ hq2 hc

/-- On the success path, the walk pushes one vertex per halfedge. -/
theorem collectLoop_ok_len (M : SurfaceMesh) (h0 : Halfedge) :
    ∀ (fuel : Nat) (h : Halfedge) (hs0 : List Halfedge) (vs0 : List Vertex)
      (evs0 : List Ev) (hs : List Halfedge) (vs : List Vertex) (evs : List Ev),
      vs0.length = hs0.length →
      collectLoop M h0 fuel h hs0 vs0 evs0 = some (.ok hs vs evs) →
      vs.length = hs.length := by
  intro fuel
  induction fuel with
  | zero =>
    intro h hs0 vs0 evs0 hs vs evs hl hc
    exact absurd hc (by simp [collectLoop])
  | succ fuel ih =>
    intro h hs0 vs0 evs0 hs vs evs hl hc
    simp only [collectLoop] at hc
    by_cases hman : M.is_manifold (M.to_vertex h) = false
    · rw [if_pos hman] at hc
      simp at hc
    · rw [if_neg hman] at hc
      have hl2 : (vs0 ++ [M.to_vertex h]).length = (hs0 ++ [h]).length := by
        simp [hl]
      by_cases hnext : M.next_halfedge h = h0
      · rw [if_pos hnext] at hc
        injection hc with hc2
        injection hc2 with h1 h2 _
        rw [← h1, ← h2]
        exact hl2
      · rw [if_neg hnext] at hc
        exact ih _ _ _ _ _ _ _ hl2 hc

/-- On the abort path, the walk produced queries followed by the diagnostic. -/
theorem collectLoop_nm (M : SurfaceMesh) (h0 : Halfedge) :
    ∀ (fuel : Nat) (h : Halfedge) (hs0 : List Halfedge) (vs0 : List Vertex)
      (evs0 : List Ev) (evs : List Ev),
      (∀ e ∈ evs0, e = Ev.query) →
      collectLoop M h0 fuel h hs0 vs0 evs0 = some (.nonManifold evs) →
      ∃ evs2, evs = evs2 ++ [Ev.query, Ev.diagNonManifold] ∧
        ∀ e ∈ evs2, e = Ev.query := by
  intro fuel
  induction fuel with
  | zero =>
    intro h hs0 vs0 evs0 evs hq hc
    exact absurd hc (by simp [collectLoop])
  | succ fuel ih =>
    intro h hs0 vs0 evs0 evs hq hc
    simp only [collectLoop] at hc
    by_cases hman : M.is_manifold (M.to_vertex h) = false
    · rw [if_pos hman] at hc
      injection hc with hc2
      injection hc2 with h1
      exact ⟨evs0, h1.symm, hq⟩
    · rw [if_neg hman] at hc
      have hq2 : ∀ e ∈ evs0 ++ [Ev.query], e = Ev.query := by
        intro e he
        rcases List.mem_append.mp he with he | he
        · exact hq e he
        · simpa using he
      by_cases hnext : M.next_halfedge h = h0
      · rw [if_pos hnext] at hc
        simp at hc
      · rw [if_neg hnext] at hc
        exact ih _ _ _ _ _ hq2 hc

/-- Every event generated by the table-building loops is a query. -/
theorem dpEvents_query (n : Nat) : ∀ e ∈ dpEvents n, e = Ev.query := by
  intro e he
  simp only [dpEvents, List.mem_flatMap, List.mem_map] at he
  obtain ⟨j, _, i, _, _, _, rfl⟩ := he
  rfl

/-- Trace of a face accepted with at most three boundary vertices: the
collection events only. -/
theorem triangulateFace_small (M : SurfaceMesh) (f : Face) (fuel : Nat)
    (hs : List Halfedge) (vs : List Vertex) (evs : List Ev)
    (hc : collectLoop M (M.halfedge f) fuel (M.halfedge f) [] [] [] = some (.ok hs vs evs))
    (hlen : hs.length ≤ 3) : triangulateFace M f fuel = some evs := by
  simp only [triangulateFace, hc]
  rw [if_pos hlen]

/-- Trace of an accepted polygon with at least four vertices, given a
successful emitter run. -/
theorem triangulateFace_big (M : SurfaceMesh) (f : Face) (fuel : Nat)
    (hs : List Halfedge) (vs : List Vertex) (evs : List Ev) (tris : List Tri)
    (hc : collectLoop M (M.halfedge f) fuel (M.halfedge f) [] [] [] = some (.ok hs vs evs))
    (hlen : 3 < hs.length)
    (he : emitLoop (fun a b => (buildTable (compute_weight M vs) hs.length a b).2)
        hs.length vs fuel [((0 : Int), (hs.length : Int) - 1)] [] = some tris) :
    triangulateFace M f fuel =
      some (evs ++ [Ev.deleteFace f] ++ dpEvents hs.length ++ tris.map triEv) := by
  simp only [triangulateFace, hc]
  rw [if_neg (by omega), he]

/-- Interior-edge test, unfolded to the underlying mesh queries. -/
theorem is_interior_edge_iff (M : SurfaceMesh) (a b : Vertex) :
    is_interior_edge M a b = true ↔
      ∃ h, M.find_halfedge a b = some h ∧ M.is_boundary h = false ∧
        M.is_boundary (M.opposite_halfedge h) = false := by
  rw [is_interior_edge]
  cases hf : M.find_halfedge a b with
  | none => simp
  | some h =>
    simp only [Bool.and_eq_true, Bool.not_eq_true', Option.some.injEq]
    constructor
    · rintro ⟨h1, h2⟩
      exact ⟨h, rfl, h1, h2⟩
    · rintro ⟨h2, rfl, h3, h4⟩
      exact ⟨h3, h4⟩

/-- C2: for polygon-local indices i < m < k, compute_weight returns the
infeasible sentinel if at least one of the segments (i,m), (m,k), (k,i)
exists in the mesh as an interior edge (the halfedge between the two vertices
exists and neither it nor its opposite is a boundary halfedge), and otherwise
returns the squared magnitude of the cross product of (position(m) -
position(i)) and (position(k) - position(i)), which is nonnegative. -/
theorem claim_C2 (M : SurfaceMesh) (vs : List Vertex) (i j k : Nat)
    (hij : i < j) (hjk : j < k) :
    (((∃ h, M.find_halfedge (vs.getD i 0) (vs.getD j 0) = some h ∧
          M.is_boundary h = false ∧ M.is_boundary (M.opposite_halfedge h) = false) ∨
      (∃ h, M.find_halfedge (vs.getD j 0) (vs.getD k 0) = some h ∧
          M.is_boundary h = false ∧ M.is_boundary (M.opposite_halfedge h) = false) ∨
      (∃ h, M.find_halfedge (vs.getD k 0) (vs.getD i 0) = some h ∧
          M.is_boundary h = false ∧ M.is_boundary (M.opposite_halfedge h) = false)) →
        compute_weight M vs i j k = FLTMAX) ∧
    ((¬ ((∃ h, M.find_halfedge (vs.getD i 0) (vs.getD j 0) = some h ∧
          M.is_boundary h = false ∧ M.is_boundary (M.opposite_halfedge h) = false) ∨
      (∃ h, M.find_halfedge (vs.getD j 0) (vs.getD k 0) = some h ∧
          M.is_boundary h = false ∧ M.is_boundary (M.opposite_halfedge h) = false) ∨
      (∃ h, M.find_halfedge (vs.getD k 0) (vs.getD i 0) = some h ∧
          M.is_boundary h = false ∧ M.is_boundary (M.opposite_halfedge h) = false))) →
        compute_weight M vs i j k =
          sqrnorm (cross (psub (M.point (vs.getD j 0)) (M.point (vs.getD i 0)))
            (psub (M.point (vs.getD k 0)) (M.point (vs.getD i 0)))) ∧
        0 ≤ compute_weight M vs i j k) := by
  have hiff : (is_interior_edge M (vs.getD i 0) (vs.getD j 0) ||
      is_interior_edge M (vs.getD j 0) (vs.getD k 0) ||
      is_interior_edge M (vs.getD k 0) (vs.getD i 0)) = true ↔
      ((∃ h, M.find_halfedge (vs.getD i 0) (vs.getD j 0) = some h ∧
          M.is_boundary h = false ∧ M.is_boundary (M.opposite_halfedge h) = false) ∨
      (∃ h, M.find_halfedge (vs.getD j 0) (vs.getD k 0) = some h ∧
          M.is_boundary h = false ∧ M.is_boundary (M.opposite_halfedge h) = false) ∨
      (∃ h, M.find_halfedge (vs.getD k 0) (vs.getD i 0) = some h ∧
          M.is_boundary h = false ∧ M.is_boundary (M.opposite_halfedge h) = false)) := by
    rw [Bool.or_eq_true, Bool.or_eq_true, is_interior_edge_iff, is_interior_edge_iff,
      is_interior_edge_iff, or_assoc]
  constructor
  · intro hcond
    simp only [compute_weight]
    rw [if_pos (hiff.mpr hcond)]
  · intro hcond
    have hfalse : (is_interior_edge M (vs.getD i 0) (vs.getD j 0) ||
        is_interior_edge M (vs.getD j 0) (vs.getD k 0) ||
        is_interior_edge M (vs.getD k 0) (vs.getD i 0)) ≠ true := fun hx => hcond (hiff.mp hx)
    constructor
    · simp only [compute_weight]
      rw [if_neg hfalse]
    · simp only [compute_weight]
      rw [if_neg hfalse, sqrnorm]
      positivity

/-- C2 witness: the square quad with no pre-existing edges, at the triple
(0, 1, 2). -/
theorem claim_C2_witness :
    0 < 1 ∧ (1 : Nat) < 2 ∧
    ((¬ ((∃ h, squareMesh.find_halfedge ([0, 1, 2, 3].getD 0 0) ([0, 1, 2, 3].getD 1 0) = some h ∧
          squareMesh.is_boundary h = false ∧
          squareMesh.is_boundary (squareMesh.opposite_halfedge h) = false) ∨
      (∃ h, squareMesh.find_halfedge ([0, 1, 2, 3].getD 1 0) ([0, 1, 2, 3].getD 2 0) = some h ∧
          squareMesh.is_boundary h = false ∧
          squareMesh.is_boundary (squareMesh.opposite_halfedge h) = false) ∨
      (∃ h, squareMesh.find_halfedge ([0, 1, 2, 3].getD 2 0) ([0, 1, 2, 3].getD 0 0) = some h ∧
          squareMesh.is_boundary h = false ∧
          squareMesh.is_boundary (squareMesh.opposite_halfedge h) = false))) →
        compute_weight squareMesh [0, 1, 2, 3] 0 1 2 =
          sqrnorm (cross
            (psub (squareMesh.point ([0, 1, 2, 3].getD 1 0))
              (squareMesh.point ([0, 1, 2, 3].getD 0 0)))
            (psub (squareMesh.point ([0, 1, 2, 3].getD 2 0))
              (squareMesh.point ([0, 1, 2, 3].getD 0 0)))) ∧
        0 ≤ compute_weight squareMesh [0, 1, 2, 3] 0 1 2) :=
  ⟨by decide, by decide, (claim_C2 squareMesh [0, 1, 2, 3] 0 1 2 (by decide) (by decide)).2⟩

/-- Congruence for the running-minimum fold. -/
theorem foldl_min_congr (f g : Nat → ℤ) (l : List Nat) (w : ℤ)
    (h : ∀ m ∈ l, f m = g m) :
    l.foldl (fun w m => min w (f m)) w = l.foldl (fun w m => min w (g m)) w := by
  induction l generalizing w with
  | nil => rfl
  | cons m ms ih =>
    simp only [List.foldl_cons]
    rw [h m (by simp)]
    exact ih _ fun x hx => h x (by simp [hx])

/-- C1 (amended): after the table-building phase, W[i][i+1] = 0 and
S[i][i+1] = -1 for every i in [0, n-2]; and for every pair (i,k) with
k - i >= 2 and k <= n-1, W[i][k] equals the minimum of the sentinel FLT_MAX
and all candidates W[i][m] + cost(i,m,k) + W[m][k] over i < m < k.  When some
candidate is strictly below the sentinel, S[i][k] is the first-encountered
(lowest-index) m attaining that minimum; when no candidate is (so the stored
weight is at least the sentinel), S[i][k] is -1 rather than a minimiser.
The original claim fails in the second case, where it requires S[i][k] to be
the lowest-index minimiser. -/
theorem claim_C1_amended (cost : Nat → Nat → Nat → ℤ) (n : Nat) (hn : 4 ≤ n) :
    (∀ i : Nat, i + 1 ≤ n - 1 → buildTable cost n i (i + 1) = (0, -1)) ∧
    (∀ i k : Nat, i + 2 ≤ k → k ≤ n - 1 →
      ((buildTable cost n i k).1 =
        ((List.range' (i + 1) (k - i - 1)).map
          (fun m => (buildTable cost n i m).1 + cost i m k +
            (buildTable cost n m k).1)).foldl min FLTMAX) ∧
      ((buildTable cost n i k).1 < FLTMAX →
        ∃ m : Nat, i < m ∧ m < k ∧ (buildTable cost n i k).2 = (m : Int) ∧
          (buildTable cost n i m).1 + cost i m k + (buildTable cost n m k).1 =
            (buildTable cost n i k).1 ∧
          ∀ m2 : Nat, i < m2 → m2 < m →
            (buildTable cost n i k).1 <
              (buildTable cost n i m2).1 + cost i m2 k + (buildTable cost n m2 k).1) ∧
      (FLTMAX ≤ (buildTable cost n i k).1 → (buildTable cost n i k).2 = -1)) := by
  constructor
  · intro i hi
    rw [buildTable_eq_Wspec cost n hi, Wspec_gap1]
  · intro i k h2 hk
    have hT : buildTable cost n i k = Wspec cost i k := buildTable_eq_Wspec cost n hk
    have hchild : ∀ m ∈ List.range' (i + 1) (k - i - 1),
        (buildTable cost n i m).1 + cost i m k + (buildTable cost n m k).1 =
          (Wspec cost i m).1 + cost i m k + (Wspec cost m k).1 := by
      intro m hm
      have hb := mem_range'_iff.mp hm
      rw [buildTable_eq_Wspec cost n (show m ≤ n - 1 by omega),
        buildTable_eq_Wspec cost n hk]
    refine ⟨?_, ?_, ?_⟩
    · rw [hT, Wspec_rec cost h2, scanSplits_fst, List.foldl_map]
      exact (foldl_min_congr _ _ _ _ hchild).symm
    · intro hlt
      rw [hT] at hlt ⊢
      rw [Wspec_rec cost h2] at hlt
      obtain ⟨l1, m, l2, hsplit, hidx, hval, hmin⟩ :=
        scanSplits_split_lt _ _ _ _ hlt
      have hmem : m ∈ List.range' (i + 1) (k - i - 1) := by
        rw [hsplit]
        exact List.mem_append_right l1 (List.mem_cons_self m l2)
      have hb := mem_range'_iff.mp hmem
      refine ⟨m, by omega, by omega, by rw [Wspec_rec cost h2]; exact hidx, ?_, ?_⟩
      · rw [hchild m hmem, hval, Wspec_rec cost h2]
      · intro m2 hm2a hm2b
        have hm2mem : m2 ∈ List.range' (i + 1) (k - i - 1) :=
          mem_range'_iff.mpr ⟨by omega, by omega⟩
        have hm2l1 : m2 ∈ l1 := by
          have hpw := range'_pairwise_lt (i + 1) (k - i - 1)
          rw [hsplit] at hpw
          rw [hsplit] at hm2mem
          rcases List.mem_append.mp hm2mem with hx | hx
          · exact hx
          · exfalso
            rcases List.mem_cons.mp hx with rfl | hx
            · omega
            · have := (List.pairwise_append.mp hpw).2.1
              have := (List.pairwise_cons.mp this).1 m2 hx
              omega
        rw [hchild m2 hm2mem, Wspec_rec cost h2]
        exact hmin m2 hm2l1
    · intro hge
      rw [hT] at hge ⊢
      rw [Wspec_rec cost h2] at hge ⊢
      rw [scanSplits_eq_of_ge _ _ _ _ hge]

/-- C1 counterexample: in the quad whose diagonal between vertices 0 and 2
pre-exists as an interior edge, the unique candidate split m = 1 of interval
(0,2) attains the stored minimum W[0][2] (both are the sentinel), yet
S[0][2] = -1 instead of the first-encountered minimiser 1 that the claim
requires.  And in the fully conflicted pentagon, the stored W[0][4] (the
sentinel) is strictly below every candidate, so it is not the minimum over m
of W[0][m] + cost(0,m,4) + W[m][4] that the claim requires either. -/
theorem claim_C1_counterexample :
    ((buildTable quadIntCost 4 0 1).1 + quadIntCost 0 1 2 +
        (buildTable quadIntCost 4 1 2).1 = (buildTable quadIntCost 4 0 2).1 ∧
    (buildTable quadIntCost 4 0 2).2 = -1 ∧
    (buildTable quadIntCost 4 0 2).2 ≠ (1 : Int)) ∧
    ((buildTable pentIntCost 5 0 4).1 <
        (buildTable pentIntCost 5 0 1).1 + pentIntCost 0 1 4 +
          (buildTable pentIntCost 5 1 4).1 ∧
    (buildTable pentIntCost 5 0 4).1 <
        (buildTable pentIntCost 5 0 2).1 + pentIntCost 0 2 4 +
          (buildTable pentIntCost 5 2 4).1 ∧
    (buildTable pentIntCost 5 0 4).1 <
        (buildTable pentIntCost 5 0 3).1 + pentIntCost 0 3 4 +
          (buildTable pentIntCost 5 3 4).1) := by
  decide

/-- C1 witness: the amended claim at the conflict-free square quad (n = 4). -/
theorem claim_C1_witness :
    (4 : Nat) ≤ 4 ∧
    ((∀ i : Nat, i + 1 ≤ 4 - 1 → buildTable squareCost 4 i (i + 1) = (0, -1)) ∧
    (∀ i k : Nat, i + 2 ≤ k → k ≤ 4 - 1 →
      ((buildTable squareCost 4 i k).1 =
        ((List.range' (i + 1) (k - i - 1)).map
          (fun m => (buildTable squareCost 4 i m).1 + squareCost i m k +
            (buildTable squareCost 4 m k).1)).foldl min FLTMAX) ∧
      ((buildTable squareCost 4 i k).1 < FLTMAX →
        ∃ m : Nat, i < m ∧ m < k ∧ (buildTable squareCost 4 i k).2 = (m : Int) ∧
          (buildTable squareCost 4 i m).1 + squareCost i m k +
              (buildTable squareCost 4 m k).1 = (buildTable squareCost 4 i k).1 ∧
          ∀ m2 : Nat, i < m2 → m2 < m →
            (buildTable squareCost 4 i k).1 <
              (buildTable squareCost 4 i m2).1 + squareCost i m2 k +
                (buildTable squareCost 4 m2 k).1) ∧
      (FLTMAX ≤ (buildTable squareCost 4 i k).1 →
        (buildTable squareCost 4 i k).2 = -1))) :=
  ⟨by decide, claim_C1_amended squareCost 4 (by decide)⟩

/-- C8: for an in-range interval (i,k) with k - i >= 2 all of whose candidate
splits evaluate to at least the infeasible sentinel, the table builder stores
the sentinel in W[i][k] and leaves S[i][k] at the scan default -1, which is
not a valid split index strictly between i and k. -/
theorem claim_C8 (cost : Nat → Nat → Nat → ℤ) (n i k : Nat)
    (h2 : i + 2 ≤ k) (hk : k ≤ n - 1)
    (hall : ∀ m : Nat, i < m → m < k →
      FLTMAX ≤ (buildTable cost n i m).1 + cost i m k + (buildTable cost n m k).1) :
    (buildTable cost n i k).1 = FLTMAX ∧ (buildTable cost n i k).2 = -1 ∧
    ∀ m : Nat, (buildTable cost n i k).2 = (m : Int) → ¬(i < m ∧ m < k) := by
  have hT := @buildTable_eq_Wspec cost n i k hk
  rw [hT, Wspec_rec cost h2]
  have hge : ∀ m ∈ List.range' (i + 1) (k - i - 1),
      ((FLTMAX, (-1 : Int)) : ℤ × Int).1 ≤
        (Wspec cost i m).1 + cost i m k + (Wspec cost m k).1 := by
    intro m hm
    have hb := mem_range'_iff.mp hm
    have hx := hall m (by omega) (by omega)
    rw [@buildTable_eq_Wspec cost n i m (show m ≤ n - 1 by omega),
      @buildTable_eq_Wspec cost n m k hk] at hx
    exact hx
  rw [scanSplits_of_ge _ _ _ hge]
  refine ⟨rfl, rfl, ?_⟩
  intro m hm
  exfalso
  omega

/-- C8 witness: interval (0,2) of the fully conflicted quad. -/
theorem claim_C8_witness :
    (0 : Nat) + 2 ≤ 2 ∧ (2 : Nat) ≤ 4 - 1 ∧
    ((buildTable allIntCost 4 0 2).1 = FLTMAX ∧ (buildTable allIntCost 4 0 2).2 = -1 ∧
    ∀ m : Nat, (buildTable allIntCost 4 0 2).2 = (m : Int) → ¬(0 < m ∧ m < 2)) :=
  ⟨by decide, by decide,
    claim_C8 allIntCost 4 0 2 (by decide) (by decide) fun m h1 h2 => by
      have hm : m = 1 := by omega
      subst hm
      decide⟩

/-- A query-only list contributes nothing to a count of non-query events. -/
theorem countP_zero_of_query {l : List Ev} (hq : ∀ e ∈ l, e = Ev.query)
    {p : Ev → Bool} (hp : p Ev.query = false) : l.countP p = 0 := by
  rw [List.countP_eq_zero]
  intro a ha
  rw [hq a ha, hp]
  simp

/-- Triangle-insertion events are not deletions. -/
theorem countP_isDelete_map_triEv (tris : List Tri) :
    (tris.map triEv).countP Ev.isDelete = 0 := by
  rw [List.countP_eq_zero]
  intro a ha
  obtain ⟨t, _, rfl⟩ := List.mem_map.mp ha
  simp [triEv, Ev.isDelete]

/-- Every mapped triangle event is an insertion. -/
theorem countP_isAdd_map_triEv (tris : List Tri) :
    (tris.map triEv).countP Ev.isAdd = tris.length := by
  have h : (tris.map triEv).countP Ev.isAdd = (tris.map triEv).length := by
    rw [List.countP_eq_length]
    intro a ha
    obtain ⟨t, _, rfl⟩ := List.mem_map.mp ha
    simp [triEv, Ev.isAdd]
  rw [h, List.length_map]

/-- C3: for an accepted face with n >= 4 boundary vertices such that every
interval reachable from the root (0, n-1) through the stored split table has
a valid non-sentinel split strictly inside it, triangulation deletes exactly
one face (the original polygon), the stack-based emitter terminates after
emitting exactly n - 2 triangles, and every vertex of every emitted triangle
is drawn from the collected boundary vertex list, so no new vertices are
created. -/
theorem claim_C3 (M : SurfaceMesh) (f : Face) (fuel : Nat)
    (hs : List Halfedge) (vs : List Vertex) (evs : List Ev)
    (hc : collectLoop M (M.halfedge f) fuel (M.halfedge f) [] [] [] =
      some (.ok hs vs evs))
    (hn : 4 ≤ hs.length)
    (HS : ∀ s e : Nat,
      Reach (fun a b => (buildTable (compute_weight M vs) hs.length a b).2)
        hs.length s e →
      s + 2 ≤ e →
      (s : Int) < (buildTable (compute_weight M vs) hs.length s e).2 ∧
        (buildTable (compute_weight M vs) hs.length s e).2 < (e : Int))
    (hfuel : 2 * hs.length ≤ fuel) :
    ∃ (tris : List Tri) (trace : List Ev),
      triangulateFace M f fuel = some trace ∧
      trace = evs ++ [Ev.deleteFace f] ++ dpEvents hs.length ++ tris.map triEv ∧
      tris.length = hs.length - 2 ∧
      trace.countP Ev.isDelete = 1 ∧
      Ev.deleteFace f ∈ trace ∧
      trace.countP Ev.isAdd = hs.length - 2 ∧
      ∀ t ∈ tris, t.1 ∈ vs ∧ t.2.1 ∈ vs ∧ t.2.2 ∈ vs := by
  have hvl : vs.length = hs.length :=
    collectLoop_ok_len M (M.halfedge f) fuel (M.halfedge f) [] [] [] hs vs evs rfl hc
  have hq : ∀ e ∈ evs, e = Ev.query :=
    collectLoop_ok_query M (M.halfedge f) fuel (M.halfedge f) [] [] [] hs vs evs
      (by simp) hc
  obtain ⟨tris, hemit, hlen, hmem⟩ :=
    emitLoop_ok (fun a b => (buildTable (compute_weight M vs) hs.length a b).2)
      hs.length vs hvl (by omega) HS fuel [(0, hs.length - 1)] []
      (by
        intro p hp
        have hp2 : p = ((0 : Nat), hs.length - 1) := by simpa using hp
        rw [hp2]
        exact Reach.root)
      (by
        rw [stackCost_cons]
        simp only [stackCost, List.map_nil, List.sum_nil, fcost]
        omega)
  have hcast : (((hs.length - 1 : Nat) : Int)) = (hs.length : Int) - 1 := by omega
  have hemit2 : emitLoop (fun a b => (buildTable (compute_weight M vs) hs.length a b).2)
      hs.length vs fuel [((0 : Int), (hs.length : Int) - 1)] [] = some tris := by
    simpa [hcast] using hemit
  have htf := triangulateFace_big M f fuel hs vs evs tris hc (by omega) hemit2
  have hcnt : tris.length = hs.length - 2 := by
    rw [hlen]
    simp only [List.length_nil, triSum, List.map_cons, List.map_nil, List.sum_cons,
      List.sum_nil, tcnt]
    omega
  refine ⟨tris, _, htf, rfl, hcnt, ?_, ?_, ?_, ?_⟩
  · rw [List.countP_append, List.countP_append, List.countP_append]
    rw [countP_zero_of_query hq rfl, countP_zero_of_query (dpEvents_query hs.length) rfl,
      countP_isDelete_map_triEv]
    simp [List.countP_cons, Ev.isDelete]
  · simp
  · rw [List.countP_append, List.countP_append, List.countP_append]
    rw [countP_zero_of_query hq rfl, countP_zero_of_query (dpEvents_query hs.length) rfl,
      countP_isAdd_map_triEv, hcnt]
    simp [List.countP_cons, Ev.isAdd]
  · intro t ht
    rcases hmem t ht with hx | hx
    · simp at hx
    · obtain ⟨s, m, e, _, _, _, _, _, h1, h2, h3⟩ := hx
      exact ⟨getV?_mem h1, getV?_mem h2, getV?_mem h3⟩

/-- C3 witness: the square quad face, all of whose reachable intervals carry
valid splits. -/
theorem claim_C3_witness :
    (collectLoop squareMesh (squareMesh.halfedge 0) 20 (squareMesh.halfedge 0) [] [] [] =
      some (.ok [0, 1, 2, 3] [0, 1, 2, 3] [Ev.query, Ev.query, Ev.query, Ev.query])) ∧
    (4 : Nat) ≤ ([0, 1, 2, 3] : List Halfedge).length ∧
    (∃ (tris : List Tri) (trace : List Ev),
      triangulateFace squareMesh 0 20 = some trace ∧
      trace = [Ev.query, Ev.query, Ev.query, Ev.query] ++ [Ev.deleteFace 0] ++
        dpEvents 4 ++ tris.map triEv ∧
      tris.length = 4 - 2 ∧
      trace.countP Ev.isDelete = 1 ∧
      Ev.deleteFace 0 ∈ trace ∧
      trace.countP Ev.isAdd = 4 - 2 ∧
      ∀ t ∈ tris, t.1 ∈ ([0, 1, 2, 3] : List Vertex) ∧
        t.2.1 ∈ ([0, 1, 2, 3] : List Vertex) ∧ t.2.2 ∈ ([0, 1, 2, 3] : List Vertex)) :=
  ⟨by decide, by decide,
    claim_C3 squareMesh 0 20 [0, 1, 2, 3] [0, 1, 2, 3]
      [Ev.query, Ev.query, Ev.query, Ev.query] (by decide) (by decide)
      (fun s e hr h2 => by
        have hb : s < e ∧ e ≤ 3 := by simpa using Reach_bounds (by decide) hr
        have hcase : (s = 0 ∧ e = 2) ∨ (s = 1 ∧ e = 3) ∨ (s = 0 ∧ e = 3) := by omega
        rcases hcase with ⟨rfl, rfl⟩ | ⟨rfl, rfl⟩ | ⟨rfl, rfl⟩ <;>
          exact ⟨by decide, by decide⟩)
      (by decide)⟩

/-- Unfolding of one emitter iteration on an explicit interval. -/
theorem emitLoop_cons (S : Nat → Nat → Int) (n : Nat) (vs : List Vertex)
    (fuel : Nat) (s e : Int) (rest : List (Int × Int)) (acc : List Tri) :
    emitLoop S n vs (fuel + 1) ((s, e) :: rest) acc =
      if e - s < 2 then emitLoop S n vs fuel rest acc
      else if 0 ≤ s ∧ s < (n : Int) ∧ 0 ≤ e ∧ e < (n : Int) then
        match getV? vs s, getV? vs (S s.toNat e.toNat), getV? vs e with
        | some a, some b, some c =>
          emitLoop S n vs fuel ((S s.toNat e.toNat, e) :: (s, S s.toNat e.toNat) :: rest)
            (acc ++ [(a, b, c)])
        | _, _, _ => none
      else none := rfl

/-- C9: under the valid-split precondition, every table and vertex-list
access of the triangle emitter is in bounds and the stack loop terminates
with a result; whereas popping an in-range interval whose stored split was
left at the all-infeasible default -1 makes the emitter access the vertex
list at index -1, which is out of bounds (modelled as the undefined result
none). -/
theorem claim_C9 :
    (∀ (S : Nat → Nat → Int) (n : Nat) (vs : List Vertex) (fuel : Nat),
      vs.length = n → 2 ≤ n → 2 * n ≤ fuel →
      (∀ s e : Nat, Reach S n s e → s + 2 ≤ e →
        (s : Int) < S s e ∧ S s e < (e : Int)) →
      ∃ res, emitLoop S n vs fuel [((0 : Int), (n : Int) - 1)] [] = some res) ∧
    (∀ (S : Nat → Nat → Int) (n : Nat) (vs : List Vertex) (fuel : Nat)
      (todo : List (Int × Int)) (acc : List Tri) (s e : Int),
      0 ≤ s → s < (n : Int) → 0 ≤ e → e < (n : Int) → s + 2 ≤ e →
      S s.toNat e.toNat = -1 →
      getV? vs (-1) = none ∧
      emitLoop S n vs (fuel + 1) ((s, e) :: todo) acc = none) := by
  constructor
  · intro S n vs fuel hvs hn hfuel HS
    obtain ⟨res, hres, _, _⟩ := emitLoop_ok S n vs hvs hn HS fuel [(0, n - 1)] []
      (by
        intro p hp
        have hp2 : p = ((0 : Nat), n - 1) := by simpa using hp
        rw [hp2]
        exact Reach.root)
      (by
        rw [stackCost_cons]
        simp only [stackCost, List.map_nil, List.sum_nil, fcost]
        omega)
    have hcast : ((n - 1 : Nat) : Int) = (n : Int) - 1 := by omega
    refine ⟨res, ?_⟩
    simpa [hcast] using hres
  · intro S n vs fuel todo acc s e h0s hsn h0e hen hgap hS
    refine ⟨getV?_neg (by omega), ?_⟩
    rw [emitLoop_cons, if_neg (by omega), if_pos ⟨h0s, hsn, h0e, hen⟩, hS]
    rw [getV?_neg (show (-1 : Int) < 0 by omega)]
    cases getV? vs s <;> rfl

/-- C9 witness: the square table run, and a run on a root interval whose
stored split is the default -1. -/
theorem claim_C9_witness :
    (∃ res, emitLoop (fun a b => (buildTable squareCost 4 a b).2) 4 [0, 1, 2, 3] 8
      [((0 : Int), (4 : Int) - 1)] [] = some res) ∧
    (getV? [0, 1, 2, 3] (-1) = none ∧
      emitLoop (fun _ _ => (-1 : Int)) 4 [0, 1, 2, 3] (0 + 1)
        [((0 : Int), (3 : Int))] [] = none) :=
  ⟨claim_C9.1 (fun a b => (buildTable squareCost 4 a b).2) 4 [0, 1, 2, 3] 8
      (by decide) (by decide) (by decide)
      (fun s e hr h2 => by
        have hb : s < e ∧ e ≤ 3 := by simpa using Reach_bounds (by decide) hr
        have hcase : (s = 0 ∧ e = 2) ∨ (s = 1 ∧ e = 3) ∨ (s = 0 ∧ e = 3) := by omega
        rcases hcase with ⟨rfl, rfl⟩ | ⟨rfl, rfl⟩ | ⟨rfl, rfl⟩ <;>
          exact ⟨by decide, by decide⟩),
   claim_C9.2 (fun _ _ => (-1 : Int)) 4 [0, 1, 2, 3] 0 [] [] 0 3
      (by decide) (by decide) (by decide) (by decide) (by decide) (by decide)⟩

/-- The cost evaluator never returns a negative weight. -/
theorem compute_weight_nonneg (M : SurfaceMesh) (vs : List Vertex) (i j k : Nat) :
    0 ≤ compute_weight M vs i j k := by
  simp only [compute_weight]
  split
  · exact FLTMAX_pos.le
  · rw [sqrnorm]
    positivity

/-- A cost below the sentinel certifies that none of the three candidate
edges is an interior edge. -/
theorem compute_weight_lt_free (M : SurfaceMesh) (vs : List Vertex) (i j k : Nat)
    (h : compute_weight M vs i j k < FLTMAX) :
    is_interior_edge M (vs.getD i 0) (vs.getD j 0) = false ∧
    is_interior_edge M (vs.getD j 0) (vs.getD k 0) = false ∧
    is_interior_edge M (vs.getD k 0) (vs.getD i 0) = false := by
  by_cases hc : (is_interior_edge M (vs.getD i 0) (vs.getD j 0) ||
      is_interior_edge M (vs.getD j 0) (vs.getD k 0) ||
      is_interior_edge M (vs.getD k 0) (vs.getD i 0)) = true
  · exfalso
    have hw : compute_weight M vs i j k = FLTMAX := by
      simp only [compute_weight]
      rw [if_pos hc]
    omega
  · simp only [Bool.or_eq_true, not_or, Bool.not_eq_true] at hc
    exact ⟨hc.1.1, hc.1.2, hc.2⟩

/-- A successful vertex lookup at a natural index agrees with the defaulted
indexing used by the cost evaluator. -/
theorem getV?_getD {vs : List Vertex} {i : Nat} {v : Vertex}
    (h : getV? vs (i : Int) = some v) : vs.getD i 0 = v := by
  have hlen : i < vs.length := by
    rw [getV?] at h
    split at h
    · next hc => simpa using hc.2
    · cases h
  rw [getV?_natCast hlen] at h
  injection h with h2
  rw [← h2]
  exact List.getD_eq_get vs 0 hlen

/-- Along the reachable split tree of a feasible root, every interval weight
stays below the sentinel. -/
theorem Reach_feasible (cost : Nat → Nat → Nat → ℤ) (n : Nat)
    (hc : ∀ a b c, 0 ≤ cost a b c) (hn : 4 ≤ n)
    (hroot : (Wspec cost 0 (n - 1)).1 < FLTMAX) :
    ∀ s e : Nat, Reach (fun a b => (buildTable cost n a b).2) n s e →
      (Wspec cost s e).1 < FLTMAX := by
  intro s e hr
  induction hr with
  | root => exact hroot
  | @left s e m r h2 hm hsm hme ih =>
    have hb := Reach_bounds (show 2 ≤ n by omega) r
    obtain ⟨m2, hm2a, hm2b, hidx, _, hf1, hf2, hf3⟩ := Wspec_split_of_lt cost hc h2 ih
    have hm3 : (buildTable cost n s e).2 = (m : Int) := hm
    rw [@buildTable_eq_Wspec cost n s e (by omega)] at hm3
    have hmm : m = m2 := by
      rw [hidx] at hm3
      omega
    rw [hmm]
    exact hf1
  | @right s e m r h2 hm hsm hme ih =>
    have hb := Reach_bounds (show 2 ≤ n by omega) r
    obtain ⟨m2, hm2a, hm2b, hidx, _, hf1, hf2, hf3⟩ := Wspec_split_of_lt cost hc h2 ih
    have hm3 : (buildTable cost n s e).2 = (m : Int) := hm
    rw [@buildTable_eq_Wspec cost n s e (by omega)] at hm3
    have hmm : m = m2 := by
      rw [hidx] at hm3
      omega
    rw [hmm]
    exact hf2

/-- A feasible root yields the valid-split property on all reachable
intervals. -/
theorem feasible_HS (cost : Nat → Nat → Nat → ℤ) (n : Nat)
    (hc : ∀ a b c, 0 ≤ cost a b c) (hn : 4 ≤ n)
    (hroot : (buildTable cost n 0 (n - 1)).1 < FLTMAX) :
    ∀ s e : Nat, Reach (fun a b => (buildTable cost n a b).2) n s e → s + 2 ≤ e →
      (s : Int) < (buildTable cost n s e).2 ∧
        (buildTable cost n s e).2 < (e : Int) := by
  have hroot2 : (Wspec cost 0 (n - 1)).1 < FLTMAX := by
    rw [← @buildTable_eq_Wspec cost n 0 (n - 1) (by omega)]
    exact hroot
  intro s e hr h2
  have hb := Reach_bounds (show 2 ≤ n by omega) hr
  have hfeas := Reach_feasible cost n hc hn hroot2 s e hr
  obtain ⟨m, hma, hmb, hidx, _⟩ := Wspec_split_of_lt cost hc h2 hfeas
  rw [@buildTable_eq_Wspec cost n s e (by omega), hidx]
  constructor <;> omega

/-- C5: if the accepted polygon admits at least one feasible triangulation
(the root weight of its table is below the sentinel), the face is
triangulated and no emitted triangle has an edge that the interior-edge test
reports as an interior (non-boundary) edge of the mesh.  The mesh record M is
never modified during processing (per spec §6 deletion is a deferred mark),
so the predicate consulted during cost evaluation is the mesh as measured
before this face's triangulation began. -/
theorem claim_C5 (M : SurfaceMesh) (f : Face) (fuel : Nat)
    (hs : List Halfedge) (vs : List Vertex) (evs : List Ev)
    (hc : collectLoop M (M.halfedge f) fuel (M.halfedge f) [] [] [] =
      some (.ok hs vs evs))
    (hn : 4 ≤ hs.length)
    (hfeas : (buildTable (compute_weight M vs) hs.length 0 (hs.length - 1)).1 < FLTMAX)
    (hfuel : 2 * hs.length ≤ fuel) :
    ∃ trace : List Ev, triangulateFace M f fuel = some trace ∧
      ∀ a b c : Vertex, Ev.addTriangle a b c ∈ trace →
        is_interior_edge M a b = false ∧ is_interior_edge M b c = false ∧
        is_interior_edge M c a = false := by
  have hvl : vs.length = hs.length :=
    collectLoop_ok_len M (M.halfedge f) fuel (M.halfedge f) [] [] [] hs vs evs rfl hc
  have hq : ∀ e ∈ evs, e = Ev.query :=
    collectLoop_ok_query M (M.halfedge f) fuel (M.halfedge f) [] [] [] hs vs evs
      (by simp) hc
  have hcost : ∀ a b c : Nat, 0 ≤ compute_weight M vs a b c := fun a b c =>
    compute_weight_nonneg M vs a b c
  have HS := feasible_HS (compute_weight M vs) hs.length hcost hn hfeas
  have hroot2 : (Wspec (compute_weight M vs) 0 (hs.length - 1)).1 < FLTMAX := by
    rw [← @buildTable_eq_Wspec (compute_weight M vs) hs.length 0 (hs.length - 1) (by omega)]
    exact hfeas
  obtain ⟨tris, hemit, hlen, hmem⟩ :=
    emitLoop_ok (fun a b => (buildTable (compute_weight M vs) hs.length a b).2)
      hs.length vs hvl (by omega) HS fuel [(0, hs.length - 1)] []
      (by
        intro p hp
        have hp2 : p = ((0 : Nat), hs.length - 1) := by simpa using hp
        rw [hp2]
        exact Reach.root)
      (by
        rw [stackCost_cons]
        simp only [stackCost, List.map_nil, List.sum_nil, fcost]
        omega)
  have hcast : (((hs.length - 1 : Nat) : Int)) = (hs.length : Int) - 1 := by omega
  have hemit2 : emitLoop (fun a b => (buildTable (compute_weight M vs) hs.length a b).2)
      hs.length vs fuel [((0 : Int), (hs.length : Int) - 1)] [] = some tris := by
    simpa [hcast] using hemit
  have htf := triangulateFace_big M f fuel hs vs evs tris hc (by omega) hemit2
  refine ⟨_, htf, ?_⟩
  intro a b c hmem2
  have ht : (a, b, c) ∈ tris := by
    rcases List.mem_append.mp hmem2 with hx | hx
    · exfalso
      rcases List.mem_append.mp hx with hy | hy
      · rcases List.mem_append.mp hy with hz | hz
        · have := hq _ hz
          cases this
        · simp at hz
      · have := dpEvents_query hs.length _ hy
        cases this
    · obtain ⟨t, ht2, ht3⟩ := List.mem_map.mp hx
      obtain ⟨t1, t2, t3⟩ := t
      simp only [triEv, Ev.addTriangle.injEq] at ht3
      obtain ⟨rfl, rfl, rfl⟩ := ht3
      exact ht2
  rcases hmem _ ht with habs | hx
  · simp at habs
  · obtain ⟨s, m, e, hr, h2, hSm, hsm, hme, g1, g2, g3⟩ := hx
    have hb := Reach_bounds (show 2 ≤ hs.length by omega) hr
    have hfeas2 := Reach_feasible (compute_weight M vs) hs.length hcost hn hroot2 s e hr
    obtain ⟨m2, _, _, hidx, _, _, _, hcostlt⟩ :=
      Wspec_split_of_lt (compute_weight M vs) hcost h2 hfeas2
    have hm3 : (buildTable (compute_weight M vs) hs.length s e).2 = (m : Int) := hSm
    rw [@buildTable_eq_Wspec (compute_weight M vs) hs.length s e (by omega)] at hm3
    have hmm : m = m2 := by
      rw [hidx] at hm3
      omega
    subst hmm
    have hfree := compute_weight_lt_free M vs s m e hcostlt
    have ha := getV?_getD g1
    have hbv := getV?_getD g2
    have hcv := getV?_getD g3
    simp only at ha hbv hcv
    rw [ha, hbv, hcv] at hfree
    exact hfree

/-- C5 witness: the feasible square quad. -/
theorem claim_C5_witness :
    (buildTable squareCost 4 0 (4 - 1)).1 < FLTMAX ∧
    (∃ trace : List Ev, triangulateFace squareMesh 0 20 = some trace ∧
      ∀ a b c : Vertex, Ev.addTriangle a b c ∈ trace →
        is_interior_edge squareMesh a b = false ∧
        is_interior_edge squareMesh b c = false ∧
        is_interior_edge squareMesh c a = false) :=
  ⟨by decide,
    claim_C5 squareMesh 0 20 [0, 1, 2, 3] [0, 1, 2, 3]
      [Ev.query, Ev.query, Ev.query, Ev.query] (by decide) (by decide) (by decide)
      (by decide)⟩

/-- C4 (amended): boundary collection, which performs only read-only
queries, precedes every mutation; the face deletion is the first mutation,
emitted immediately after the face is accepted and before the DP cost
evaluations; all triangle insertions come after the entire DP completes; and
a face that is not accepted — one whose boundary walk aborts at a
non-manifold vertex, or yields at most three vertices — is never mutated.
The original claim — that boundary collection and the entire DP table
computation complete before any mesh mutation — fails, because the deletion
precedes the DP queries. -/
theorem claim_C4_amended (M : SurfaceMesh) (f : Face) (fuel : Nat) :
    (∀ (hs : List Halfedge) (vs : List Vertex) (evs : List Ev) (tris : List Tri),
      collectLoop M (M.halfedge f) fuel (M.halfedge f) [] [] [] =
        some (.ok hs vs evs) →
      4 ≤ hs.length →
      emitLoop (fun a b => (buildTable (compute_weight M vs) hs.length a b).2)
        hs.length vs fuel [((0 : Int), (hs.length : Int) - 1)] [] = some tris →
      triangulateFace M f fuel =
        some (evs ++ [Ev.deleteFace f] ++ dpEvents hs.length ++ tris.map triEv) ∧
      (∀ e ∈ evs, e = Ev.query) ∧
      (∀ e ∈ dpEvents hs.length, e = Ev.query) ∧
      (∀ e ∈ tris.map triEv, e.isAdd = true)) ∧
    (∀ (hs : List Halfedge) (vs : List Vertex) (evs : List Ev),
      collectLoop M (M.halfedge f) fuel (M.halfedge f) [] [] [] =
        some (.ok hs vs evs) →
      hs.length ≤ 3 →
      triangulateFace M f fuel = some evs ∧ ∀ e ∈ evs, e.isMutation = false) ∧
    (∀ evs : List Ev,
      collectLoop M (M.halfedge f) fuel (M.halfedge f) [] [] [] =
        some (.nonManifold evs) →
      triangulateFace M f fuel = some evs ∧ ∀ e ∈ evs, e.isMutation = false) := by
  refine ⟨?_, ?_, ?_⟩
  · intro hs vs evs tris hc hn he
    refine ⟨triangulateFace_big M f fuel hs vs evs tris hc (by omega) he,
      collectLoop_ok_query M (M.halfedge f) fuel (M.halfedge f) [] [] [] hs vs evs
        (by simp) hc,
      dpEvents_query hs.length, ?_⟩
    intro e he2
    obtain ⟨t, _, rfl⟩ := List.mem_map.mp he2
    rfl
  · intro hs vs evs hc hlen
    have hq : ∀ e ∈ evs, e = Ev.query :=
      collectLoop_ok_query M (M.halfedge f) fuel (M.halfedge f) [] [] [] hs vs evs
        (by simp) hc
    exact ⟨triangulateFace_small M f fuel hs vs evs hc hlen,
      fun e he => by rw [hq e he]; rfl⟩
  · intro evs hc
    have htf : triangulateFace M f fuel = some evs := by
      simp only [triangulateFace, hc]
    obtain ⟨evs2, hevs, hq⟩ := collectLoop_nm M (M.halfedge f) fuel (M.halfedge f)
      [] [] [] evs (by simp) hc
    refine ⟨htf, ?_⟩
    intro e he
    rw [hevs] at he
    rcases List.mem_append.mp he with hx | hx
    · rw [hq e hx]
      rfl
    · rcases List.mem_cons.mp hx with rfl | hx
      · rfl
      · rcases List.mem_cons.mp hx with rfl | hx
        · rfl
        · simp at hx

/-- C4 counterexample: on the accepted square quad face the deletion event
precedes the DP queries, so read-only mesh accesses occur after a mutation;
the claim that collection and the entire DP table computation complete before
any mutation is false on this face. -/
theorem claim_C4_counterexample :
    Ev.deleteFace 0 ∈ (triangulateFace squareMesh 0 20).getD [] ∧
    noQueryAfterMutation ((triangulateFace squareMesh 0 20).getD []) = false := by
  decide

/-- C4 witness: the amended ordering on the accepted square quad, and the
mutation-free traces of two non-accepted faces — a triangle and a
non-manifold quad. -/
theorem claim_C4_witness :
    ((triangulateFace squareMesh 0 20 =
      some ([Ev.query, Ev.query, Ev.query, Ev.query] ++ [Ev.deleteFace 0] ++
        dpEvents 4 ++
        ([((0 : Vertex), (1 : Vertex), (3 : Vertex)),
          ((1 : Vertex), (2 : Vertex), (3 : Vertex))] : List Tri).map triEv)) ∧
    (∀ e ∈ [Ev.query, Ev.query, Ev.query, Ev.query], e = Ev.query) ∧
    (∀ e ∈ dpEvents 4, e = Ev.query) ∧
    (∀ e ∈ ([((0 : Vertex), (1 : Vertex), (3 : Vertex)),
        ((1 : Vertex), (2 : Vertex), (3 : Vertex))] : List Tri).map triEv,
      e.isAdd = true)) ∧
    (triangulateFace triMesh 0 20 = some [Ev.query, Ev.query, Ev.query] ∧
      ∀ e ∈ [Ev.query, Ev.query, Ev.query], Ev.isMutation e = false) ∧
    (triangulateFace nonManMesh 0 20 =
        some [Ev.query, Ev.query, Ev.diagNonManifold] ∧
      ∀ e ∈ [Ev.query, Ev.query, Ev.diagNonManifold], Ev.isMutation e = false) :=
  ⟨(claim_C4_amended squareMesh 0 20).1 [0, 1, 2, 3] [0, 1, 2, 3]
      [Ev.query, Ev.query, Ev.query, Ev.query]
      [((0 : Vertex), (1 : Vertex), (3 : Vertex)),
        ((1 : Vertex), (2 : Vertex), (3 : Vertex))]
      (by decide) (by decide) (by decide),
   (claim_C4_amended triMesh 0 20).2.1 [0, 1, 2] [0, 1, 2]
      [Ev.query, Ev.query, Ev.query] (by decide) (by decide),
   (claim_C4_amended nonManMesh 0 20).2.2 [Ev.query, Ev.query, Ev.diagNonManifold]
      (by decide)⟩

/-- A mutation-free trace leaves the observable mesh data unchanged. -/
theorem applyTrace_id {evs : List Ev} (h : ∀ e ∈ evs, e.isMutation = false) :
    ∀ d : MeshData, applyTrace d evs = d := by
  induction evs with
  | nil => intro d; rfl
  | cons e es ih =>
    intro d
    have he := h e (by simp)
    have hd : applyEv d e = d := by
      cases e with
      | query => rfl
      | diagNonManifold => rfl
      | deleteFace g => simp [Ev.isMutation] at he
      | addTriangle a b c => simp [Ev.isMutation] at he
    simp only [applyTrace, List.foldl_cons, hd]
    exact ih (fun x hx => h x (by simp [hx])) d

/-- C7: a face whose boundary walk succeeds visiting only manifold vertices
and has at most three boundary vertices is a no-op: its trace consists of
the collection queries only, with no deletion and no insertion, and applying
the trace leaves the face list, vertex set and edge set of the observable
mesh data unchanged. -/
theorem claim_C7 (M : SurfaceMesh) (f : Face) (fuel : Nat)
    (hs : List Halfedge) (vs : List Vertex) (evs : List Ev)
    (hc : collectLoop M (M.halfedge f) fuel (M.halfedge f) [] [] [] =
      some (.ok hs vs evs))
    (hlen : hs.length ≤ 3) :
    triangulateFace M f fuel = some evs ∧
    (∀ e ∈ evs, e.isMutation = false) ∧
    evs.countP Ev.isDelete = 0 ∧ evs.countP Ev.isAdd = 0 ∧
    ∀ d : MeshData, applyTrace d evs = d := by
  have hq : ∀ e ∈ evs, e = Ev.query :=
    collectLoop_ok_query M (M.halfedge f) fuel (M.halfedge f) [] [] [] hs vs evs
      (by simp) hc
  have hmut : ∀ e ∈ evs, e.isMutation = false := fun e he => by rw [hq e he]; rfl
  exact ⟨triangulateFace_small M f fuel hs vs evs hc hlen, hmut,
    countP_zero_of_query hq rfl, countP_zero_of_query hq rfl, applyTrace_id hmut⟩

/-- C7 witness: a triangle face. -/
theorem claim_C7_witness :
    (collectLoop triMesh (triMesh.halfedge 0) 20 (triMesh.halfedge 0) [] [] [] =
      some (.ok [0, 1, 2] [0, 1, 2] [Ev.query, Ev.query, Ev.query])) ∧
    (triangulateFace triMesh 0 20 = some [Ev.query, Ev.query, Ev.query] ∧
    (∀ e ∈ [Ev.query, Ev.query, Ev.query], Ev.isMutation e = false) ∧
    List.countP Ev.isDelete [Ev.query, Ev.query, Ev.query] = 0 ∧
    List.countP Ev.isAdd [Ev.query, Ev.query, Ev.query] = 0 ∧
    ∀ d : MeshData, applyTrace d [Ev.query, Ev.query, Ev.query] = d) :=
  ⟨by decide,
    claim_C7 triMesh 0 20 [0, 1, 2] [0, 1, 2] [Ev.query, Ev.query, Ev.query]
      (by decide) (by decide)⟩

/-- C6: a face whose boundary walk visits a vertex failing the manifold
predicate aborts immediately with the "non-manifold polygon" diagnostic as
its final event, performs no mutation, and the whole-mesh loop proceeds with
the remaining faces instead of aborting. -/
theorem claim_C6 (M : SurfaceMesh) (f : Face) (fuel : Nat) (evs : List Ev)
    (hc : collectLoop M (M.halfedge f) fuel (M.halfedge f) [] [] [] =
      some (.nonManifold evs)) :
    triangulateFace M f fuel = some evs ∧
    (∀ e ∈ evs, e.isMutation = false) ∧
    evs.getLast? = some Ev.diagNonManifold ∧
    ∀ (rest : List Face) (ts : List Ev), triangulateAll M fuel rest = some ts →
      triangulateAll M fuel (f :: rest) = some (evs ++ ts) := by
  have htf : triangulateFace M f fuel = some evs := by
    simp only [triangulateFace, hc]
  obtain ⟨evs2, hevs, hq⟩ := collectLoop_nm M (M.halfedge f) fuel (M.halfedge f)
    [] [] [] evs (by simp) hc
  refine ⟨htf, ?_, ?_, ?_⟩
  · intro e he
    rw [hevs] at he
    rcases List.mem_append.mp he with hx | hx
    · rw [hq e hx]
      rfl
    · rcases List.mem_cons.mp hx with rfl | hx
      · rfl
      · rcases List.mem_cons.mp hx with rfl | hx
        · rfl
        · simp at hx
  · rw [hevs]
    have hsplit : evs2 ++ [Ev.query, Ev.diagNonManifold] =
        (evs2 ++ [Ev.query]) ++ [Ev.diagNonManifold] := by simp
    rw [hsplit, List.getLast?_concat]
  · intro rest ts hts
    simp only [triangulateAll, htf, hts]

/-- C6 witness: the quad whose vertex 1 is non-manifold, followed by an empty
remainder of the face loop. -/
theorem claim_C6_witness :
    (collectLoop nonManMesh (nonManMesh.halfedge 0) 20 (nonManMesh.halfedge 0) [] [] [] =
      some (.nonManifold [Ev.query, Ev.query, Ev.diagNonManifold])) ∧
    (triangulateFace nonManMesh 0 20 =
      some [Ev.query, Ev.query, Ev.diagNonManifold] ∧
    (∀ e ∈ [Ev.query, Ev.query, Ev.diagNonManifold], Ev.isMutation e = false) ∧
    ([Ev.query, Ev.query, Ev.diagNonManifold] : List Ev).getLast? =
      some Ev.diagNonManifold ∧
    ∀ (rest : List Face) (ts : List Ev),
      triangulateAll nonManMesh 20 rest = some ts →
      triangulateAll nonManMesh 20 (0 :: rest) =
        some ([Ev.query, Ev.query, Ev.diagNonManifold] ++ ts)) :=
  ⟨by decide, claim_C6 nonManMesh 0 20 [Ev.query, Ev.query, Ev.diagNonManifold] (by decide)⟩

/-- C10: a face whose boundary walk returns exactly three halfedges — as the
spec guarantees for every triangular face inserted by add_triangle — returns
at the n <= 3 check: its trace is query-only with zero deletions and zero
insertions, so a whole-mesh pass that later visits a triangle it inserted
itself never re-triangulates or subdivides it. -/
theorem claim_C10 (M : SurfaceMesh) (f : Face) (fuel : Nat)
    (hs : List Halfedge) (vs : List Vertex) (evs : List Ev)
    (hc : collectLoop M (M.halfedge f) fuel (M.halfedge f) [] [] [] =
      some (.ok hs vs evs))
    (hlen : hs.length = 3) :
    triangulateFace M f fuel = some evs ∧
    (∀ e ∈ evs, e = Ev.query) ∧
    evs.countP Ev.isDelete = 0 ∧ evs.countP Ev.isAdd = 0 := by
  have hq : ∀ e ∈ evs, e = Ev.query :=
    collectLoop_ok_query M (M.halfedge f) fuel (M.halfedge f) [] [] [] hs vs evs
      (by simp) hc
  exact ⟨triangulateFace_small M f fuel hs vs evs hc (by omega), hq,
    countP_zero_of_query hq rfl, countP_zero_of_query hq rfl⟩

/-- C10 witness: the triangle face with exactly three boundary halfedges. -/
theorem claim_C10_witness :
    ([0, 1, 2] : List Halfedge).length = 3 ∧
    (triangulateFace triMesh 0 20 = some [Ev.query, Ev.query, Ev.query] ∧
    (∀ e ∈ [Ev.query, Ev.query, Ev.query], e = Ev.query) ∧
    List.countP Ev.isDelete [Ev.query, Ev.query, Ev.query] = 0 ∧
    List.countP Ev.isAdd [Ev.query, Ev.query, Ev.query] = 0) :=
  ⟨by decide,
    claim_C10 triMesh 0 20 [0, 1, 2] [0, 1, 2] [Ev.query, Ev.query, Ev.query]
      (by decide) (by decide)⟩

end PmpTri
